import Mathlib

/-!
# Verification of `transformers4rec/torch/utils/schema_utils.py`

A shallow embedding of the synthetic-data generator `random_data_from_schema`,
its ragged-to-dense helper pipeline (`_pull_values_offsets`, `_get_indices`,
`_get_sparse_tensor`) and the schema-mutation helper `_augment_schema`.

Modelling conventions:
* Tensors are a shape (list of dimension sizes) plus a flat, row-major list of
  elements.  Elements are rationals; `torch.randint` draws are rationals that
  happen to be natural numbers (torch dtypes are orthogonal to the value-level
  properties verified here).
* The ambient random sources (Python's `random` module and torch's global
  generator) are embedded as explicit streams of raw draws plus a cursor
  (`RState`) threaded through the computation.  `random.randint(a, b)` is
  `a + raw % (b + 1 - a)` (uniform on `[a, b]` for a uniform raw stream),
  `torch.randint(lo, hi, ...)` is `lo + raw % (hi - lo)` elementwise and
  `torch.rand` takes the fractional part of the raw rational stream,
  which lies in `[0, 1)`.
* Python `Optional[int]` truthiness (`if max_session_length:`,
  `session_length or feature.value_count.max`): `None` and `0` are falsy.
* `int64` subtraction of torch offset tensors is embedded as natural-number
  subtraction; the offsets built by this file are monotone cumulative sums,
  where the two agree.
-/

namespace SchemaUtils

/-- Python truthiness of an `Optional[int]`: `None` and `0` are falsy. -/
def truthy : Option Nat → Bool
  | none => false
  | some n => n != 0

/-- Python `x or d` for `x : Optional[int]` (falls through on `None` and `0`). -/
def pyOr (x : Option Nat) (d : Nat) : Nat :=
  match x with
  | none => d
  | some n => if n = 0 then d else n

/-- Fractional part of a rational, the value semantics of a `torch.rand` draw. -/
def fract01 (q : ℚ) : ℚ := q - ⌊q⌋

/-- The ambient random sources: Python's `random` module stream and torch's
global generator (integer and real draws kept as separate streams). -/
structure Rng where
  pyInts : Nat → Nat
  torchInts : Nat → Nat
  torchReals : Nat → ℚ

/-- Cursor into the three raw streams of `Rng`. -/
structure RState where
  py : Nat
  ti : Nat
  tr : Nat
deriving DecidableEq

/-- `random.randint(lo, hi)`: uniform on the closed interval `[lo, hi]`. -/
def pyRandint (rng : Rng) (lo hi : Nat) (st : RState) : Nat × RState :=
  (lo + rng.pyInts st.py % (hi + 1 - lo), { st with py := st.py + 1 })

/-- A torch tensor: dimension sizes plus flat row-major data. -/
structure STensor where
  shape : List Nat
  data : List ℚ
deriving DecidableEq

/-- Python `len()` of a tensor: the size of its leading dimension. -/
def STensor.len (t : STensor) : Nat := t.shape.headD 0

/-- `torch.randint(lo, hi, shape)`: integers uniform in `[lo, hi)`. -/
def torchRandintT (rng : Rng) (lo hi : Nat) (shape : List Nat) (st : RState) :
    STensor × RState :=
  (⟨shape, (List.range shape.prod).map fun j =>
      ((lo + rng.torchInts (st.ti + j) % (hi - lo) : Nat) : ℚ)⟩,
   { st with ti := st.ti + shape.prod })

/-- `torch.rand(shape)`: reals uniform in `[0, 1)`. -/
def torchRandT (rng : Rng) (shape : List Nat) (st : RState) : STensor × RState :=
  (⟨shape, (List.range shape.prod).map fun j => fract01 (rng.torchReals (st.tr + j))⟩,
   { st with tr := st.tr + shape.prod })

/-- `torch.cat` along dimension 0. -/
def catT (a b : STensor) : STensor :=
  ⟨(a.shape.headD 0 + b.shape.headD 0) :: a.shape.tail, a.data ++ b.data⟩

/-- `torch.stack(ts, dim=0)`. -/
def stackT (ts : List STensor) : STensor :=
  ⟨ts.length :: (ts.headD ⟨[], []⟩).shape, (ts.map STensor.data).flatten⟩

/-- The `value_count` field of a schema feature (proto message, presence
observable through `has_field`). -/
structure ValueCount where
  max : Nat
deriving DecidableEq

/-- The `int_domain` field of a schema feature. -/
structure IntDomain where
  max : Nat
deriving DecidableEq

/-- The `shape` field of a schema feature: the sizes of its dimensions. -/
structure ShapeProto where
  dims : List Nat
deriving DecidableEq

/-- A feature descriptor of a `merlin_standard_lib.Schema`; optional fields
model proto-field presence as tested by `has_field`. -/
structure Feature where
  name : String
  value_count : Option ValueCount
  int_domain : Option IntDomain
  shape : Option ShapeProto
deriving DecidableEq

/-- `merlin_standard_lib.Schema`: an ordered list of features. -/
structure Schema where
  feature : List Feature
deriving DecidableEq

/-- `has_field(feature, "value_count")`. -/
def Feature.is_list_feature (f : Feature) : Bool := f.value_count.isSome

/-- `has_field(feature, "int_domain")`. -/
def Feature.is_int_feature (f : Feature) : Bool := f.int_domain.isSome

/-- `feature.shape.dim[0].size > 1 if has_field(feature, "shape") else False`. -/
def Feature.is_embedding (f : Feature) : Bool :=
  match f.shape with
  | some s => decide (s.dims.headD 0 > 1)
  | none => false

/-- `[d.size for d in feature.shape.dim] if has_field(feature, "shape") else (1,)`. -/
def Feature.shapeDims (f : Feature) : List Nat :=
  match f.shape with
  | some s => s.dims
  | none => [1]

/-- The per-feature accumulator held in the `data` dict of
`random_data_from_schema`: a plain tensor, a `(flat values, per-row lengths)`
pair for list features, or a Python list of per-row tensors for embedding
features awaiting the final `torch.stack`. -/
inductive Accum
  | tensor (t : STensor)
  | ragged (vals : List ℚ) (lengths : List Nat)
  | pending (ts : List STensor)
deriving DecidableEq

/-- Ordered-dict lookup (`data[k]` / `k in data`). -/
def alookup (k : String) : List (String × α) → Option α
  | [] => none
  | (k', v) :: rest => if k' = k then some v else alookup k rest

/-- Ordered-dict assignment `data[k] = v`: updates in place, appends if new. -/
def aupdate (k : String) (v : α) : List (String × α) → List (String × α)
  | [] => [(k, v)]
  | (k', v') :: rest => if k' = k then (k, v) :: rest else (k', v') :: aupdate k v rest

/-- The per-feature draw of one row (source lines 48-62): branch on
integer-domain / list / declared shape and draw from the torch generator. -/
def drawFor (rng : Rng) (session_length : Option Nat) (f : Feature) (st : RState) :
    STensor × RState :=
  if f.is_int_feature then
    let max_num := (f.int_domain.getD ⟨0⟩).max
    if f.is_list_feature then
      let list_length := pyOr session_length (f.value_count.getD ⟨0⟩).max
      torchRandintT rng 1 max_num [list_length] st
    else
      torchRandintT rng 1 max_num f.shapeDims st
  else
    if f.is_list_feature then
      let list_length := pyOr session_length (f.value_count.getD ⟨0⟩).max
      torchRandT rng [list_length] st
    else
      torchRandT rng f.shapeDims st

/-- Accumulation of one generated row into the `data` dict entry of its
feature (source lines 64-85).  `row = (row, [len(row)])` for list features is
folded into the `ragged` cases; the `i == num_rows - 1` test performs the
final `torch.stack` for embedding features.  Branches that would raise in
Python (an entry changing kind between rows, which cannot happen since the
kind is a function of the feature) are left inert. -/
def accumStep (num_rows i : Nat) (f : Feature) (prev : Option Accum) (row : STensor) :
    Accum :=
  match prev with
  | none =>
    if f.is_list_feature then .ragged row.data [row.len] else .tensor row
  | some a =>
    if f.is_list_feature then
      match a with
      | .ragged vs ls => .ragged (vs ++ row.data) (ls ++ [row.len])
      | x => x
    else if f.is_embedding then
      let acc := match a with
        | .pending ts => Accum.pending (ts ++ [row])
        | .tensor t => Accum.pending [t, row]
        | x => x
      if i = num_rows - 1 then
        match acc with
        | .pending ts => .tensor (stackT ts)
        | x => x
      else acc
    else
      match a with
      | .tensor t => .tensor (catT t row)
      | x => x

/-- One feature of one row of the generator loop. -/
def processFeature (rng : Rng) (num_rows i : Nat) (session_length : Option Nat)
    (acc : List (String × Accum) × RState) (f : Feature) :
    List (String × Accum) × RState :=
  let rs := drawFor rng session_length f acc.2
  (aupdate f.name (accumStep num_rows i f (alookup f.name acc.1) rs.1) acc.1, rs.2)

/-- One row of the generator loop: draw the row's session length when a
(truthy) `max_session_length` is configured, then process every feature. -/
def processRow (rng : Rng) (schema : Schema) (num_rows : Nat)
    (max_session_length : Option Nat) (min_session_length : Nat)
    (acc : List (String × Accum) × RState) (i : Nat) :
    List (String × Accum) × RState :=
  let session_length : Option Nat :=
    if truthy max_session_length then
      some (pyRandint rng min_session_length (max_session_length.getD 0) acc.2).1
    else none
  let st : RState :=
    if truthy max_session_length then
      (pyRandint rng min_session_length (max_session_length.getD 0) acc.2).2
    else acc.2
  schema.feature.foldl (processFeature rng num_rows i session_length) (acc.1, st)

/-- The accumulation loop of `random_data_from_schema` (source lines 36-85):
the `data` dict after all rows, plus the final stream cursor. -/
def genLoop (rng : Rng) (schema : Schema) (num_rows : Nat)
    (max_session_length : Option Nat) (min_session_length : Nat) :
    List (String × Accum) × RState :=
  (List.range num_rows).foldl
    (processRow rng schema num_rows max_session_length min_session_length)
    ([], ⟨0, 0, 0⟩)

/-- `offsets = [0]; for length in val[1][:-1]: offsets.append(offsets[-1] + length)`. -/
def buildOffsets (lengths : List Nat) : List Nat :=
  lengths.dropLast.foldl (fun offs len => offs ++ [offs.getLastD 0 + len]) [0]

/-- `_pull_values_offsets` on the `(values, offsets)` tuple (both already
flat): returns `(values, offsets ++ [len(values)], diff_offsets, num_rows)`. -/
def _pull_values_offsets (values : List ℚ) (offsets : List Nat) :
    List ℚ × List Nat × List Nat × Nat :=
  let num_rows := offsets.length
  let offsets' := offsets ++ [values.length]
  let diff_offsets := (offsets'.zip offsets'.tail).map fun p => p.2 - p.1
  (values, offsets', diff_offsets, num_rows)

/-- `torch.repeat_interleave(xs, counts)` for equal-length inputs. -/
def repeatInterleave : List α → List Nat → List α
  | a :: as, n :: ns => List.replicate n a ++ repeatInterleave as ns
  | _, _ => []

/-- `_get_indices`: (row, column) coordinates of every ragged value. -/
def _get_indices (offsets diff_offsets : List Nat) : List (Nat × Nat) :=
  let row_ids := List.range (offsets.length - 1)
  let row_ids_repeated := repeatInterleave row_ids diff_offsets
  let row_offset_repeated := repeatInterleave offsets.dropLast diff_offsets
  let col_ids := ((List.range row_offset_repeated.length).zip row_offset_repeated).map
    fun p => p.1 - p.2
  row_ids_repeated.zip col_ids

/-- `_get_sparse_tensor`: `sparse_coo_tensor(indices.T, values,
(num_rows, seq_limit)).to_dense()`; a dense cell holds the sum of the sparse
values at its coordinate (COO coalescing semantics), zero when there is none.
A coordinate at or beyond the declared size lands in no cell here, where torch
raises on densification: the placement is unguarded either way, and the
in-bounds analysis of the coordinates is carried out separately. -/
def _get_sparse_tensor (values : List ℚ) (indices : List (Nat × Nat))
    (num_rows seq_limit : Nat) : STensor :=
  ⟨[num_rows, seq_limit],
   (List.range (num_rows * seq_limit)).map fun p =>
     (((indices.zip values).filter fun q =>
        q.1.1 == p / seq_limit && q.1.2 == p % seq_limit).map Prod.snd).sum⟩

/-- The indices the output phase hands to `_get_sparse_tensor` for one list
feature's accumulated `(flat values, lengths)` pair. -/
def raggedIndices (flat : List ℚ) (lens : List Nat) : List (Nat × Nat) :=
  let po := _pull_values_offsets flat (buildOffsets lens)
  _get_indices po.2.1 po.2.2.1

/-- The output phase of `random_data_from_schema` for one dict entry (source
lines 88-98): list-feature accumulators run through the ragged-to-dense
pipeline with `seq_limit = max_session_length or val[1][0]`; everything else
passes through unchanged. -/
def outputVal (max_session_length : Option Nat) : Accum → Accum
  | .ragged flat lens =>
    let po := _pull_values_offsets flat (buildOffsets lens)
    let seq_limit := pyOr max_session_length (lens.headD 0)
    .tensor (_get_sparse_tensor po.1 (_get_indices po.2.1 po.2.2.1) po.2.2.2 seq_limit)
  | v => v

/-- `random_data_from_schema(schema, num_rows, max_session_length,
min_session_length)`: the generator loop followed by the output phase. -/
def random_data_from_schema (rng : Rng) (schema : Schema) (num_rows : Nat)
    (max_session_length : Option Nat) (min_session_length : Nat) :
    List (String × Accum) :=
  (genLoop rng schema num_rows max_session_length min_session_length).1.map
    fun kv => (kv.1, outputVal max_session_length kv.2)

/-! ### Basic facts about the embedded primitives -/

theorem fract01_eq_fract (q : ℚ) : fract01 q = Int.fract q := rfl

theorem fract01_nonneg (q : ℚ) : 0 ≤ fract01 q := by
  rw [fract01_eq_fract]; exact Int.fract_nonneg q

theorem fract01_lt_one (q : ℚ) : fract01 q < 1 := by
  rw [fract01_eq_fract]; exact Int.fract_lt_one q

theorem pyRandint_le (rng : Rng) (lo hi : Nat) (st : RState) :
    lo ≤ (pyRandint rng lo hi st).1 := by
  simp only [pyRandint]; omega

theorem pyRandint_ge (rng : Rng) (lo hi : Nat) (st : RState) (h : lo ≤ hi) :
    (pyRandint rng lo hi st).1 ≤ hi := by
  simp only [pyRandint]
  have := Nat.mod_lt (rng.pyInts st.py) (show 0 < hi + 1 - lo by omega)
  omega

/-! ### Ordered-dict lemmas -/

theorem alookup_aupdate_self (k : String) (v : α) (l : List (String × α)) :
    alookup k (aupdate k v l) = some v := by
  induction l with
  | nil => simp [alookup, aupdate]
  | cons hd tl ih =>
    obtain ⟨k', v'⟩ := hd
    by_cases h : k' = k <;> simp [alookup, aupdate, h, ih]

theorem alookup_aupdate_ne (k k' : String) (v : α) (l : List (String × α))
    (h : k' ≠ k) : alookup k' (aupdate k v l) = alookup k' l := by
  have h' : k ≠ k' := Ne.symm h
  induction l with
  | nil => simp [alookup, aupdate, h']
  | cons hd tl ih =>
    obtain ⟨k0, v0⟩ := hd
    by_cases h0 : k0 = k
    · subst h0
      simp [alookup, aupdate, h']
    · simp [alookup, aupdate, h0, ih]

theorem alookup_eq_none_iff (k : String) (l : List (String × α)) :
    alookup k l = none ↔ k ∉ l.map Prod.fst := by
  induction l with
  | nil => simp [alookup]
  | cons hd tl ih =>
    obtain ⟨k', v'⟩ := hd
    by_cases h : k' = k
    · subst h; simp [alookup]
    · simp [alookup, h, ih, Ne.symm h]

theorem aupdate_of_alookup_none (k : String) (v : α) (l : List (String × α))
    (h : alookup k l = none) : aupdate k v l = l ++ [(k, v)] := by
  induction l with
  | nil => simp [aupdate]
  | cons hd tl ih =>
    obtain ⟨k', v'⟩ := hd
    by_cases h' : k' = k
    · simp [alookup, h'] at h
    · simp only [alookup, h', if_false] at h
      simp [aupdate, h', ih h]

theorem map_fst_aupdate_of_isSome (k : String) (v : α) (l : List (String × α))
    (h : (alookup k l).isSome) : (aupdate k v l).map Prod.fst = l.map Prod.fst := by
  induction l with
  | nil => simp [alookup] at h
  | cons hd tl ih =>
    obtain ⟨k', v'⟩ := hd
    by_cases h' : k' = k
    · simp [aupdate, h']
    · simp only [alookup, h', if_false] at h
      simp [aupdate, h', ih h]

theorem alookup_map_value (g : α → β) (k : String) (l : List (String × α)) :
    alookup k (l.map fun kv => (kv.1, g kv.2)) = (alookup k l).map g := by
  induction l with
  | nil => simp [alookup]
  | cons hd tl ih =>
    obtain ⟨k', v'⟩ := hd
    by_cases h : k' = k <;> simp [alookup, h, ih]

/-! ### Shape and value facts about the per-feature draw -/

theorem drawFor_list_shape (rng : Rng) (sl : Option Nat) (f : Feature) (st : RState)
    (vc : ValueCount) (h : f.value_count = some vc) :
    (drawFor rng sl f st).1.shape = [pyOr sl vc.max] ∧
    (drawFor rng sl f st).1.data.length = pyOr sl vc.max := by
  have hl : f.is_list_feature = true := by simp [Feature.is_list_feature, h]
  by_cases hi : f.is_int_feature = true <;>
    simp [drawFor, hl, hi, h, torchRandintT, torchRandT]

theorem drawFor_nonlist_shape (rng : Rng) (sl : Option Nat) (f : Feature) (st : RState)
    (h : f.value_count = none) :
    (drawFor rng sl f st).1.shape = f.shapeDims ∧
    (drawFor rng sl f st).1.data.length = f.shapeDims.prod := by
  have hl : f.is_list_feature = false := by simp [Feature.is_list_feature, h]
  by_cases hi : f.is_int_feature = true <;>
    simp [drawFor, hl, hi, torchRandintT, torchRandT]

theorem drawFor_int_values (rng : Rng) (sl : Option Nat) (f : Feature) (st : RState)
    (M : Nat) (hint : f.int_domain = some ⟨M⟩) (hM : 2 ≤ M) :
    ∀ q ∈ (drawFor rng sl f st).1.data, ∃ k : Nat, 1 ≤ k ∧ k < M ∧ q = (k : ℚ) := by
  have hi : f.is_int_feature = true := by simp [Feature.is_int_feature, hint]
  have key : ∀ (shape : List Nat) (st' : RState),
      ∀ q ∈ (torchRandintT rng 1 M shape st').1.data,
        ∃ k : Nat, 1 ≤ k ∧ k < M ∧ q = (k : ℚ) := by
    intro shape st' q hq
    simp only [torchRandintT, List.mem_map, List.mem_range] at hq
    obtain ⟨j, _, hj⟩ := hq
    refine ⟨1 + rng.torchInts (st'.ti + j) % (M - 1), by omega, ?_, hj.symm⟩
    have := Nat.mod_lt (rng.torchInts (st'.ti + j)) (show 0 < M - 1 by omega)
    omega
  by_cases hl : f.is_list_feature = true
  · simp only [drawFor, hi, hl, hint, if_true, Option.getD_some]
    exact key _ _
  · simp only [drawFor, hi, hl, hint, if_true, if_false, Option.getD_some]
    exact key _ _

theorem drawFor_cont_values (rng : Rng) (sl : Option Nat) (f : Feature) (st : RState)
    (hint : f.int_domain = none) :
    ∀ q ∈ (drawFor rng sl f st).1.data, 0 ≤ q ∧ q < 1 := by
  have hi : f.is_int_feature = false := by simp [Feature.is_int_feature, hint]
  have key : ∀ (shape : List Nat) (st' : RState),
      ∀ q ∈ (torchRandT rng shape st').1.data, 0 ≤ q ∧ q < 1 := by
    intro shape st' q hq
    simp only [torchRandT, List.mem_map, List.mem_range] at hq
    obtain ⟨j, _, hj⟩ := hq
    exact hj ▸ ⟨fract01_nonneg _, fract01_lt_one _⟩
  by_cases hl : f.is_list_feature = true
  · simp only [drawFor, hi, hl, if_true, if_false, Bool.false_eq_true]
    exact key _ _
  · simp only [drawFor, hi, hl, if_true, if_false, Bool.false_eq_true]
    exact key _ _

/-! ### The inner (per-row) fold over the schema's features

The `data` dict is keyed by feature name, so with pairwise-distinct feature
names each entry evolves independently: processing a row rewrites the entry of
each feature through `accumStep` applied to a draw taken at *some* stream
cursor, and touches no other entry. -/

theorem innerFold_frame (rng : Rng) (nr i : Nat) (sl : Option Nat) :
    ∀ (feats : List Feature) (acc : List (String × Accum) × RState) (nm : String),
      nm ∉ feats.map Feature.name →
      alookup nm (feats.foldl (processFeature rng nr i sl) acc).1 = alookup nm acc.1 := by
  intro feats
  induction feats with
  | nil => intro acc nm _; rfl
  | cons g rest ih =>
    intro acc nm hnm
    simp only [List.map_cons, List.mem_cons, not_or] at hnm
    rw [List.foldl_cons, ih _ _ hnm.2]
    simp only [processFeature]
    exact alookup_aupdate_ne g.name nm _ _ hnm.1

theorem innerFold_lookup (rng : Rng) (nr i : Nat) (sl : Option Nat) :
    ∀ (feats : List Feature) (acc : List (String × Accum) × RState) (f : Feature),
      f ∈ feats → (feats.map Feature.name).Nodup →
      ∃ st', alookup f.name (feats.foldl (processFeature rng nr i sl) acc).1
        = some (accumStep nr i f (alookup f.name acc.1) (drawFor rng sl f st').1) := by
  intro feats
  induction feats with
  | nil => intro acc f hf _; exact absurd hf (List.not_mem_nil f)
  | cons g rest ih =>
    intro acc f hf hnd
    simp only [List.map_cons, List.nodup_cons] at hnd
    rcases List.mem_cons.mp hf with hfg | hfr
    · subst hfg
      refine ⟨acc.2, ?_⟩
      rw [List.foldl_cons, innerFold_frame rng nr i sl rest _ f.name hnd.1]
      simp only [processFeature]
      exact alookup_aupdate_self ..
    · have hne : f.name ≠ g.name := by
        intro e
        exact hnd.1 (e ▸ List.mem_map_of_mem Feature.name hfr)
      obtain ⟨st', hst⟩ := ih (processFeature rng nr i sl acc g) f hfr hnd.2
      have heq : alookup f.name (processFeature rng nr i sl acc g).1 = alookup f.name acc.1 := by
        simp only [processFeature]
        exact alookup_aupdate_ne g.name f.name _ _ hne
      refine ⟨st', ?_⟩
      rw [List.foldl_cons, hst, heq]

theorem innerFold_keys_of_isSome (rng : Rng) (nr i : Nat) (sl : Option Nat) :
    ∀ (feats : List Feature) (acc : List (String × Accum) × RState),
      (∀ f ∈ feats, (alookup f.name acc.1).isSome) →
      (feats.foldl (processFeature rng nr i sl) acc).1.map Prod.fst = acc.1.map Prod.fst := by
  intro feats
  induction feats with
  | nil => intro acc _; rfl
  | cons g rest ih =>
    intro acc hall
    have hg := hall g (List.mem_cons_self ..)
    have hkeys : (processFeature rng nr i sl acc g).1.map Prod.fst = acc.1.map Prod.fst := by
      simp only [processFeature]
      exact map_fst_aupdate_of_isSome _ _ _ hg
    have hsome : ∀ f ∈ rest, (alookup f.name (processFeature rng nr i sl acc g).1).isSome := by
      intro f hf
      by_cases he : g.name = f.name
      · simp only [processFeature]
        rw [he, alookup_aupdate_self]
        rfl
      · simp only [processFeature]
        rw [alookup_aupdate_ne _ _ _ _ (Ne.symm he)]
        exact hall f (List.mem_cons_of_mem _ hf)
    rw [List.foldl_cons, ih _ hsome, hkeys]

theorem innerFold_keys_new (rng : Rng) (nr i : Nat) (sl : Option Nat) :
    ∀ (feats : List Feature) (acc : List (String × Accum) × RState),
      (feats.map Feature.name).Nodup →
      (∀ f ∈ feats, alookup f.name acc.1 = none) →
      (feats.foldl (processFeature rng nr i sl) acc).1.map Prod.fst
        = acc.1.map Prod.fst ++ feats.map Feature.name := by
  intro feats
  induction feats with
  | nil => intro acc _ _; simp
  | cons g rest ih =>
    intro acc hnd hnone
    simp only [List.map_cons, List.nodup_cons] at hnd
    have hgnone := hnone g (List.mem_cons_self ..)
    have hkeys : (processFeature rng nr i sl acc g).1.map Prod.fst
        = acc.1.map Prod.fst ++ [g.name] := by
      simp only [processFeature]
      rw [aupdate_of_alookup_none _ _ _ hgnone]
      simp
    have hrest : ∀ f ∈ rest, alookup f.name (processFeature rng nr i sl acc g).1 = none := by
      intro f hf
      have hne : f.name ≠ g.name := by
        intro e
        exact hnd.1 (e ▸ List.mem_map_of_mem Feature.name hf)
      simp only [processFeature]
      rw [alookup_aupdate_ne _ _ _ _ hne]
      exact hnone f (List.mem_cons_of_mem _ hf)
    rw [List.foldl_cons, ih _ hnd.2 hrest, hkeys]
    simp

/-! ### Case lemmas for `accumStep` -/

theorem accumStep_list_none (nr i : Nat) (f : Feature) (row : STensor)
    (vc : ValueCount) (h : f.value_count = some vc) :
    accumStep nr i f none row = .ragged row.data [row.len] := by
  simp [accumStep, Feature.is_list_feature, h]

theorem accumStep_list_ragged (nr i : Nat) (f : Feature) (row : STensor)
    (vc : ValueCount) (h : f.value_count = some vc) (vs : List ℚ) (ls : List Nat) :
    accumStep nr i f (some (.ragged vs ls)) row = .ragged (vs ++ row.data) (ls ++ [row.len]) := by
  simp [accumStep, Feature.is_list_feature, h]

theorem accumStep_nonlist_none (nr i : Nat) (f : Feature) (row : STensor)
    (h : f.value_count = none) :
    accumStep nr i f none row = .tensor row := by
  simp [accumStep, Feature.is_list_feature, h]

theorem accumStep_emb_tensor (nr i : Nat) (f : Feature) (row t : STensor)
    (h : f.value_count = none) (hemb : f.is_embedding = true) :
    accumStep nr i f (some (.tensor t)) row
      = if i = nr - 1 then .tensor (stackT [t, row]) else .pending [t, row] := by
  by_cases hi : i = nr - 1 <;>
    simp [accumStep, Feature.is_list_feature, h, hemb, hi]

theorem accumStep_emb_pending (nr i : Nat) (f : Feature) (row : STensor)
    (ts : List STensor) (h : f.value_count = none) (hemb : f.is_embedding = true) :
    accumStep nr i f (some (.pending ts)) row
      = if i = nr - 1 then .tensor (stackT (ts ++ [row])) else .pending (ts ++ [row]) := by
  by_cases hi : i = nr - 1 <;>
    simp [accumStep, Feature.is_list_feature, h, hemb, hi]

theorem accumStep_scalar_tensor (nr i : Nat) (f : Feature) (row t : STensor)
    (h : f.value_count = none) (hemb : f.is_embedding = false) :
    accumStep nr i f (some (.tensor t)) row = .tensor (catT t row) := by
  simp [accumStep, Feature.is_list_feature, h, hemb]

theorem stackT_shape (ts : List STensor) (dims : List Nat)
    (hne : ts ≠ []) (hall : ∀ t ∈ ts, t.shape = dims) :
    (stackT ts).shape = ts.length :: dims := by
  match ts, hne with
  | t :: rest, _ =>
    simp only [stackT, List.headD_cons]
    rw [hall t (List.mem_cons_self ..)]

/-! ### The outer fold over rows -/

/-- The generator's `data` dict after the first `k` of `num_rows` rows. -/
def loopRows (rng : Rng) (schema : Schema) (num_rows : Nat) (msl : Option Nat)
    (minsl : Nat) (k : Nat) : List (String × Accum) × RState :=
  (List.range k).foldl (processRow rng schema num_rows msl minsl) ([], ⟨0, 0, 0⟩)

theorem genLoop_eq_loopRows (rng : Rng) (schema : Schema) (N : Nat)
    (msl : Option Nat) (minsl : Nat) :
    genLoop rng schema N msl minsl = loopRows rng schema N msl minsl N := rfl

theorem loopRows_succ (rng : Rng) (schema : Schema) (N : Nat) (msl : Option Nat)
    (minsl : Nat) (k : Nat) :
    loopRows rng schema N msl minsl (k + 1)
      = processRow rng schema N msl minsl (loopRows rng schema N msl minsl k) k := by
  rw [loopRows, List.range_succ, List.foldl_append]
  rfl

/-- The session length drawn at the start of a row, as a function of the
stream cursor at row entry. -/
def rowSL (rng : Rng) (msl : Option Nat) (minsl : Nat) (st : RState) : Option Nat :=
  if truthy msl then some (pyRandint rng minsl (msl.getD 0) st).1 else none

/-- The stream cursor after the row's session-length draw. -/
def rowStart (rng : Rng) (msl : Option Nat) (minsl : Nat) (st : RState) : RState :=
  if truthy msl then (pyRandint rng minsl (msl.getD 0) st).2 else st

theorem processRow_eq (rng : Rng) (schema : Schema) (nr : Nat) (msl : Option Nat)
    (minsl : Nat) (acc : List (String × Accum) × RState) (i : Nat) :
    processRow rng schema nr msl minsl acc i
      = schema.feature.foldl (processFeature rng nr i (rowSL rng msl minsl acc.2))
          (acc.1, rowStart rng msl minsl acc.2) := rfl

/-- What a row's session length can be: absent when `max_session_length` is
falsy, else a `randint(min_session_length, max_session_length)` draw. -/
def slSpec (msl : Option Nat) (minsl : Nat) (sl : Option Nat) : Prop :=
  if truthy msl then
    ∃ v, sl = some v ∧ minsl ≤ v ∧ (minsl ≤ msl.getD 0 → v ≤ msl.getD 0)
  else sl = none

theorem rowSL_spec (rng : Rng) (msl : Option Nat) (minsl : Nat) (st : RState) :
    slSpec msl minsl (rowSL rng msl minsl st) := by
  by_cases h : truthy msl = true
  · simp only [slSpec, rowSL, h, if_true]
    exact ⟨_, rfl, pyRandint_le .., fun hle => pyRandint_ge rng minsl (msl.getD 0) st hle⟩
  · simp [slSpec, rowSL, h]

/-- Loop invariant for a list feature: after `k ≥ 1` rows its dict entry is a
`ragged` pair holding the concatenation of the per-row value lists, in row
order, each row's length resolved from that row's session length by Python
`or`-fallback to the declared `value_count.max`. -/
theorem loopRows_list_feature (rng : Rng) (schema : Schema) (N : Nat)
    (msl : Option Nat) (minsl : Nat) (f : Feature) (vc : ValueCount)
    (hnd : (schema.feature.map Feature.name).Nodup)
    (hf : f ∈ schema.feature) (hvc : f.value_count = some vc) :
    ∀ k, 1 ≤ k →
      ∃ vss : List (List ℚ),
        vss.length = k ∧
        alookup f.name (loopRows rng schema N msl minsl k).1
          = some (.ragged vss.flatten (vss.map List.length)) ∧
        ∀ vs ∈ vss, ∃ sl, slSpec msl minsl sl ∧ vs.length = pyOr sl vc.max := by
  intro k
  induction k with
  | zero => intro h; omega
  | succ k ih =>
    intro _
    obtain ⟨st', hlook⟩ := innerFold_lookup rng N k
      (rowSL rng msl minsl (loopRows rng schema N msl minsl k).2) schema.feature
      ((loopRows rng schema N msl minsl k).1,
        rowStart rng msl minsl (loopRows rng schema N msl minsl k).2) f hf hnd
    rw [← processRow_eq, ← loopRows_succ] at hlook
    have hrow := drawFor_list_shape rng
      (rowSL rng msl minsl (loopRows rng schema N msl minsl k).2) f st' vc hvc
    have hrowlen : (drawFor rng (rowSL rng msl minsl (loopRows rng schema N msl minsl k).2)
        f st').1.len = pyOr (rowSL rng msl minsl (loopRows rng schema N msl minsl k).2) vc.max := by
      rw [STensor.len, hrow.1]
      rfl
    have hslspec := rowSL_spec rng msl minsl (loopRows rng schema N msl minsl k).2
    by_cases hk : k = 0
    · subst hk
      have h0 : alookup f.name (loopRows rng schema N msl minsl 0).1 = none := rfl
      rw [h0, accumStep_list_none N 0 f _ vc hvc] at hlook
      refine ⟨[(drawFor rng (rowSL rng msl minsl (loopRows rng schema N msl minsl 0).2)
        f st').1.data], rfl, ?_, ?_⟩
      · rw [hlook, hrowlen]
        simp [hrow.2]
      · intro vs hvs
        rw [List.mem_singleton] at hvs
        subst hvs
        exact ⟨_, hslspec, hrow.2⟩
    · obtain ⟨vss, hlen, hl, hspec⟩ := ih (by omega)
      rw [hl, accumStep_list_ragged N k f _ vc hvc] at hlook
      refine ⟨vss ++ [(drawFor rng (rowSL rng msl minsl (loopRows rng schema N msl minsl k).2)
        f st').1.data], by simp [hlen], ?_, ?_⟩
      · rw [hlook, hrowlen]
        simp [hrow.2]
      · intro vs hvs
        rcases List.mem_append.mp hvs with h1 | h2
        · exact hspec vs h1
        · rw [List.mem_singleton] at h2
          subst h2
          exact ⟨_, hslspec, hrow.2⟩

/-- Loop invariant for an embedding feature (`shape.dim[0].size > 1`, not a
list feature): one bare row tensor after the first row, a growing Python list
from the second row on, stacked into an `(k, *dims)` tensor exactly when the
last row (`i == num_rows - 1`) is processed. -/
theorem loopRows_embedding (rng : Rng) (schema : Schema) (N : Nat)
    (msl : Option Nat) (minsl : Nat) (f : Feature)
    (hnd : (schema.feature.map Feature.name).Nodup)
    (hf : f ∈ schema.feature) (hvc : f.value_count = none)
    (hemb : f.is_embedding = true) (hN : 2 ≤ N) :
    ∀ k, k ≤ N →
      (k = 0 → alookup f.name (loopRows rng schema N msl minsl k).1 = none) ∧
      (k = 1 → ∃ t : STensor, alookup f.name (loopRows rng schema N msl minsl k).1
          = some (.tensor t) ∧ t.shape = f.shapeDims) ∧
      (2 ≤ k → k < N → ∃ ts : List STensor,
          alookup f.name (loopRows rng schema N msl minsl k).1 = some (.pending ts) ∧
          ts.length = k ∧ ∀ t ∈ ts, t.shape = f.shapeDims) ∧
      (k = N → ∃ t : STensor, alookup f.name (loopRows rng schema N msl minsl k).1
          = some (.tensor t) ∧ t.shape = N :: f.shapeDims) := by
  intro k
  induction k with
  | zero =>
    intro _
    exact ⟨fun _ => rfl, fun h => absurd h (by omega), fun h => absurd h (by omega),
      fun h => absurd h.symm (by omega)⟩
  | succ k ih =>
    intro hkN
    obtain ⟨st', hlook⟩ := innerFold_lookup rng N k
      (rowSL rng msl minsl (loopRows rng schema N msl minsl k).2) schema.feature
      ((loopRows rng schema N msl minsl k).1,
        rowStart rng msl minsl (loopRows rng schema N msl minsl k).2) f hf hnd
    rw [← processRow_eq, ← loopRows_succ] at hlook
    have hrow := drawFor_nonlist_shape rng
      (rowSL rng msl minsl (loopRows rng schema N msl minsl k).2) f st' hvc
    obtain ⟨ih0, ih1, ihmid, ihN⟩ := ih (by omega)
    by_cases hk0 : k = 0
    · subst hk0
      rw [ih0 rfl, accumStep_nonlist_none N 0 f _ hvc] at hlook
      refine ⟨fun h => absurd h (by omega), ?_, fun h => absurd h (by omega),
        fun h => absurd h (by omega)⟩
      intro _
      exact ⟨_, hlook, hrow.1⟩
    · by_cases hk1 : k = 1
      · subst hk1
        obtain ⟨t, hl1, hts⟩ := ih1 rfl
        rw [hl1, accumStep_emb_tensor N 1 f _ t hvc hemb] at hlook
        by_cases hNev : 1 = N - 1
        · -- N = 2 : the second row is the last one and stacks
          have hN2 : N = 2 := by omega
          rw [if_pos hNev] at hlook
          refine ⟨fun h => absurd h (by omega), fun h => absurd h (by omega),
            fun _ h => absurd h (by omega), fun _ => ?_⟩
          refine ⟨_, hlook, ?_⟩
          rw [stackT_shape [t, (drawFor rng (rowSL rng msl minsl
              (loopRows rng schema N msl minsl 1).2) f st').1] f.shapeDims (by simp) ?_]
          · simp [hN2]
          · intro u hu
            rcases List.mem_cons.mp hu with h1 | h2
            · exact h1 ▸ hts
            · rw [List.mem_singleton] at h2
              exact h2 ▸ hrow.1
        · -- N > 2 : the entry becomes a pending list of two tensors
          rw [if_neg hNev] at hlook
          refine ⟨fun h => absurd h (by omega), fun h => absurd h (by omega),
            fun _ _ => ?_, fun h => absurd h (by omega)⟩
          refine ⟨_, hlook, by simp, ?_⟩
          intro u hu
          rcases List.mem_cons.mp hu with h1 | h2
          · exact h1 ▸ hts
          · rw [List.mem_singleton] at h2
            exact h2 ▸ hrow.1
      · -- k ≥ 2 : the entry is a pending list
        obtain ⟨ts, hlmid, htslen, htsall⟩ := ihmid (by omega) (by omega)
        rw [hlmid, accumStep_emb_pending N k f _ ts hvc hemb] at hlook
        have htsall' : ∀ u ∈ ts ++ [(drawFor rng (rowSL rng msl minsl
            (loopRows rng schema N msl minsl k).2) f st').1], u.shape = f.shapeDims := by
          intro u hu
          rcases List.mem_append.mp hu with h1 | h2
          · exact htsall u h1
          · rw [List.mem_singleton] at h2
            exact h2 ▸ hrow.1
        by_cases hNev : k = N - 1
        · have hkN' : k + 1 = N := by omega
          rw [if_pos hNev] at hlook
          refine ⟨fun h => absurd h (by omega), fun h => absurd h (by omega),
            fun _ h => absurd h (by omega), fun _ => ?_⟩
          refine ⟨_, hlook, ?_⟩
          rw [stackT_shape _ f.shapeDims (by simp) htsall']
          simp [htslen, hkN']
        · rw [if_neg hNev] at hlook
          refine ⟨fun h => absurd h (by omega), fun h => absurd h (by omega),
            fun _ _ => ?_, fun h => absurd h (by omega)⟩
          refine ⟨_, hlook, by simp [htslen], htsall'⟩

/-- Loop invariant for a scalar continuous feature (no `value_count`, no
`int_domain`, scalar shape): a growing 1-D tensor of `[0, 1)` draws. -/
theorem loopRows_scalar_cont (rng : Rng) (schema : Schema) (N : Nat)
    (msl : Option Nat) (minsl : Nat) (f : Feature)
    (hnd : (schema.feature.map Feature.name).Nodup)
    (hf : f ∈ schema.feature) (hvc : f.value_count = none)
    (hint : f.int_domain = none) (hsh : f.shape = none ∨ f.shape = some ⟨[1]⟩) :
    ∀ k, 1 ≤ k →
      ∃ t : STensor,
        alookup f.name (loopRows rng schema N msl minsl k).1 = some (.tensor t) ∧
        t.shape = [k] ∧ t.data.length = k ∧ ∀ q ∈ t.data, 0 ≤ q ∧ q < 1 := by
  have hdims : f.shapeDims = [1] := by
    rcases hsh with h | h <;> simp [Feature.shapeDims, h]
  have hembF : f.is_embedding = false := by
    rcases hsh with h | h <;> simp [Feature.is_embedding, h]
  intro k
  induction k with
  | zero => intro h; omega
  | succ k ih =>
    intro _
    obtain ⟨st', hlook⟩ := innerFold_lookup rng N k
      (rowSL rng msl minsl (loopRows rng schema N msl minsl k).2) schema.feature
      ((loopRows rng schema N msl minsl k).1,
        rowStart rng msl minsl (loopRows rng schema N msl minsl k).2) f hf hnd
    rw [← processRow_eq, ← loopRows_succ] at hlook
    have hrow := drawFor_nonlist_shape rng
      (rowSL rng msl minsl (loopRows rng schema N msl minsl k).2) f st' hvc
    have hrowvals := drawFor_cont_values rng
      (rowSL rng msl minsl (loopRows rng schema N msl minsl k).2) f st' hint
    rw [hdims] at hrow
    by_cases hk : k = 0
    · subst hk
      have h0 : alookup f.name (loopRows rng schema N msl minsl 0).1 = none := rfl
      rw [h0, accumStep_nonlist_none N 0 f _ hvc] at hlook
      refine ⟨_, hlook, ?_, ?_, hrowvals⟩
      · rw [hrow.1]
      · rw [hrow.2]
        rfl
    · obtain ⟨t, hl, hts, htl, htv⟩ := ih (by omega)
      rw [hl, accumStep_scalar_tensor N k f _ t hvc hembF] at hlook
      refine ⟨_, hlook, ?_, ?_, ?_⟩
      · simp [catT, hts, hrow.1]
      · simp [catT, htl, hrow.2]
      · intro q hq
        rcases List.mem_append.mp hq with h1 | h2
        · exact htv q h1
        · exact hrowvals q h2

/-- After at least one row, the dict keys are exactly the schema's feature
names, in schema order. -/
theorem loopRows_keys (rng : Rng) (schema : Schema) (N : Nat)
    (msl : Option Nat) (minsl : Nat)
    (hnd : (schema.feature.map Feature.name).Nodup) :
    ∀ k, 1 ≤ k →
      (loopRows rng schema N msl minsl k).1.map Prod.fst
        = schema.feature.map Feature.name := by
  intro k
  induction k with
  | zero => intro h; omega
  | succ k ih =>
    intro _
    rw [loopRows_succ, processRow_eq]
    by_cases hk : k = 0
    · subst hk
      rw [innerFold_keys_new rng N 0
        (rowSL rng msl minsl (loopRows rng schema N msl minsl 0).2) schema.feature
        ((loopRows rng schema N msl minsl 0).1,
          rowStart rng msl minsl (loopRows rng schema N msl minsl 0).2)
        hnd (fun _ _ => rfl)]
      rfl
    · have hkeys := ih (by omega)
      rw [innerFold_keys_of_isSome rng N k _ schema.feature _ ?_]
      · exact hkeys
      · intro g hg
        rw [Option.isSome_iff_ne_none]
        intro hnone
        rw [alookup_eq_none_iff] at hnone
        exact hnone (hkeys ▸ List.mem_map_of_mem Feature.name hg)

/-! ### Characterising the ragged-to-dense pipeline

`buildOffsets` produces the cumulative starting offsets of the rows,
`_pull_values_offsets` recovers the row lengths as adjacent differences, and
`_get_indices` enumerates, row-major, the coordinate `(r, c)` of every ragged
value.  The specs below describe the pipeline on arbitrary length lists. -/

/-- Cumulative starting offsets of rows with the given lengths (first row at
offset `a`). -/
def scanFrom (a : Nat) : List Nat → List Nat
  | [] => []
  | l :: ls => a :: scanFrom (a + l) ls

/-- Cumulative end offsets: `cumFrom a ls = [a + l₁, a + l₁ + l₂, ...]`. -/
def cumFrom (a : Nat) : List Nat → List Nat
  | [] => []
  | l :: ls => (a + l) :: cumFrom (a + l) ls

/-- Row-major coordinates of the ragged values: for rows numbered from `r0`
with the given lengths, row `r` contributes `(r, 0), ..., (r, len_r - 1)`. -/
def expFrom (r0 : Nat) : List Nat → List (Nat × Nat)
  | [] => []
  | l :: ls => (List.range l).map (fun c => (r0, c)) ++ expFrom (r0 + 1) ls

theorem scanFrom_length (a : Nat) (ls : List Nat) : (scanFrom a ls).length = ls.length := by
  induction ls generalizing a with
  | nil => rfl
  | cons l ls ih => simp [scanFrom, ih]

theorem buildOffsets_foldl (ls : List Nat) : ∀ (init : List Nat),
    ls.foldl (fun offs len => offs ++ [offs.getLastD 0 + len]) init
      = init ++ cumFrom (init.getLastD 0) ls := by
  induction ls with
  | nil => intro init; simp [cumFrom]
  | cons l ls ih =>
    intro init
    rw [List.foldl_cons, ih]
    have hlast : (init ++ [init.getLastD 0 + l]).getLastD 0 = init.getLastD 0 + l := by
      simp
    rw [hlast]
    simp [cumFrom]

theorem scanFrom_eq_cons_cumFrom : ∀ (ls : List Nat) (a : Nat), ls ≠ [] →
    scanFrom a ls = a :: cumFrom a ls.dropLast := by
  intro ls
  induction ls with
  | nil => intro a h; exact absurd rfl h
  | cons l ls ih =>
    intro a _
    match ls, ih with
    | [], _ => rfl
    | m :: ls', ih =>
      rw [scanFrom, ih (a + l) (by simp)]
      rfl

theorem buildOffsets_eq_scanFrom (ls : List Nat) (h : ls ≠ []) :
    buildOffsets ls = scanFrom 0 ls := by
  rw [buildOffsets, buildOffsets_foldl, scanFrom_eq_cons_cumFrom ls 0 h]
  rfl

/-- Adjacent differences, as computed by `_pull_values_offsets`. -/
def adjDiffs (l : List Nat) : List Nat := (l.zip l.tail).map fun p => p.2 - p.1

theorem adjDiffs_cons_cons (x y : Nat) (rest : List Nat) :
    adjDiffs (x :: y :: rest) = (y - x) :: adjDiffs (y :: rest) := rfl

theorem scanExt_cons (a l : Nat) (ls : List Nat) :
    scanFrom a (l :: ls) ++ [a + (l :: ls).sum]
      = a :: (scanFrom (a + l) ls ++ [a + l + ls.sum]) := by
  simp [scanFrom, Nat.add_assoc]

theorem adjDiffs_scanExt : ∀ (ls : List Nat) (a : Nat),
    adjDiffs (scanFrom a ls ++ [a + ls.sum]) = ls := by
  intro ls
  induction ls with
  | nil => intro a; rfl
  | cons l ls ih =>
    intro a
    rw [scanExt_cons]
    match ls, ih with
    | [], _ =>
      simp [scanFrom, adjDiffs]
    | m :: ls', ih =>
      have hcons : scanFrom (a + l) (m :: ls') ++ [a + l + (m :: ls').sum]
          = (a + l) :: (scanFrom (a + l + m) ls' ++ [a + l + (m :: ls').sum]) := by
        rw [scanFrom]
        rfl
      rw [hcons, adjDiffs_cons_cons, ← hcons, ih (a + l)]
      simp

theorem sub_block : ∀ (l a k : Nat),
    ((List.range' (a + k) l).zip (List.replicate l a)).map (fun p => p.1 - p.2)
      = List.range' k l := by
  intro l
  induction l with
  | zero => intro a k; rfl
  | succ l ih =>
    intro a k
    rw [List.range'_succ (a + k) l 1, List.range'_succ k l 1, List.replicate_succ]
    simp only [List.zip_cons_cons, List.map_cons]
    congr 1
    · exact Nat.add_sub_cancel_left a k
    · have h := ih a (k + 1)
      rw [show a + k + 1 = a + (k + 1) by omega]
      exact h

theorem zip_replicate_map (xs : List α) (r : β) :
    (List.replicate xs.length r).zip xs = xs.map (fun x => (r, x)) := by
  induction xs with
  | nil => rfl
  | cons x xs ih => simp [List.replicate_succ, ih]

/-- The zipped row/column identifiers computed by `_get_indices` on cumulative
offsets enumerate, row-major, the coordinates of every ragged value. -/
theorem gi_core : ∀ (ls : List Nat) (r0 a : Nat),
    (repeatInterleave (List.range' r0 ls.length) ls).zip
      (((List.range' a (repeatInterleave (scanFrom a ls) ls).length).zip
          (repeatInterleave (scanFrom a ls) ls)).map fun p => p.1 - p.2)
      = expFrom r0 ls := by
  intro ls
  induction ls with
  | nil => intro r0 a; rfl
  | cons l ls ih =>
    intro r0 a
    have hrows : repeatInterleave (List.range' r0 (l :: ls).length) (l :: ls)
        = List.replicate l r0 ++ repeatInterleave (List.range' (r0 + 1) ls.length) ls := by
      rw [List.length_cons, List.range'_succ r0 ls.length 1]
      rfl
    have hror : repeatInterleave (scanFrom a (l :: ls)) (l :: ls)
        = List.replicate l a ++ repeatInterleave (scanFrom (a + l) ls) ls := rfl
    rw [hrows, hror]
    have hlen : (List.replicate l a ++ repeatInterleave (scanFrom (a + l) ls) ls).length
        = l + (repeatInterleave (scanFrom (a + l) ls) ls).length := by simp
    rw [hlen]
    have hsplit : List.range' a (l + (repeatInterleave (scanFrom (a + l) ls) ls).length)
        = List.range' a l
          ++ List.range' (a + l) (repeatInterleave (scanFrom (a + l) ls) ls).length := by
      have h := List.range'_append a l (repeatInterleave (scanFrom (a + l) ls) ls).length 1
      rw [one_mul, Nat.add_comm (repeatInterleave (scanFrom (a + l) ls) ls).length l] at h
      exact h.symm
    rw [hsplit,
      List.zip_append (show (List.range' a l).length = (List.replicate l a).length by simp),
      List.map_append]
    have hcols1 : ((List.range' a l).zip (List.replicate l a)).map (fun p => p.1 - p.2)
        = List.range' 0 l := by
      have h := sub_block l a 0
      rw [Nat.add_zero] at h
      exact h
    rw [hcols1,
      List.zip_append (show (List.replicate l r0).length = (List.range' 0 l).length by simp)]
    have hfirst : (List.replicate l r0).zip (List.range' 0 l)
        = (List.range l).map (fun c => (r0, c)) := by
      have h := zip_replicate_map (List.range l) r0
      rw [List.length_range] at h
      rw [← List.range_eq_range' l]
      exact h
    rw [hfirst, ih (r0 + 1) (a + l)]
    rfl

theorem pull_values_eq (flat : List ℚ) (offsets : List Nat) :
    (_pull_values_offsets flat offsets).1 = flat := rfl

theorem pull_offsets_eq (flat : List ℚ) (offsets : List Nat) :
    (_pull_values_offsets flat offsets).2.1 = offsets ++ [flat.length] := rfl

theorem pull_diffs_eq (flat : List ℚ) (offsets : List Nat) :
    (_pull_values_offsets flat offsets).2.2.1 = adjDiffs (offsets ++ [flat.length]) := rfl

theorem pull_numrows_eq (flat : List ℚ) (offsets : List Nat) :
    (_pull_values_offsets flat offsets).2.2.2 = offsets.length := rfl

/-- On a list feature's accumulated `(flat values, lengths)` pair, the indices
handed to `_get_sparse_tensor` are exactly the row-major coordinates
`(r, 0) ... (r, len_r - 1)` for each row `r`. -/
theorem raggedIndices_spec (flat : List ℚ) (lens : List Nat) (hne : lens ≠ [])
    (hlen : flat.length = lens.sum) :
    raggedIndices flat lens = expFrom 0 lens := by
  have hext : buildOffsets lens ++ [flat.length] = scanFrom 0 lens ++ [0 + lens.sum] := by
    rw [buildOffsets_eq_scanFrom lens hne, hlen, Nat.zero_add]
  have hdiffs : adjDiffs (buildOffsets lens ++ [flat.length]) = lens := by
    rw [hext]
    exact adjDiffs_scanExt lens 0
  show _get_indices (_pull_values_offsets flat (buildOffsets lens)).2.1
      (_pull_values_offsets flat (buildOffsets lens)).2.2.1 = expFrom 0 lens
  rw [pull_offsets_eq, pull_diffs_eq, hdiffs, hext]
  simp only [_get_indices]
  rw [List.dropLast_concat]
  have hlength : (scanFrom 0 lens ++ [0 + lens.sum]).length - 1 = lens.length := by
    simp [scanFrom_length]
  rw [hlength, List.range_eq_range' lens.length,
    List.range_eq_range' (repeatInterleave (scanFrom 0 lens) lens).length]
  exact gi_core lens 0 0

/-- One padded row's `(coordinate, value)` pairs, columns numbered from `c0`. -/
def rowPairs (r0 c0 : Nat) : List ℚ → List ((Nat × Nat) × ℚ)
  | [] => []
  | v :: vs => ((r0, c0), v) :: rowPairs r0 (c0 + 1) vs

/-- `(coordinate, value)` pairs of all ragged rows, rows numbered from `r0`. -/
def zipSpec (r0 : Nat) : List (List ℚ) → List ((Nat × Nat) × ℚ)
  | [] => []
  | vs :: rest => rowPairs r0 0 vs ++ zipSpec (r0 + 1) rest

/-- The coalesced value a dense cell receives from a COO pair list: the sum of
sparse values at its coordinate (the generic cell of `_get_sparse_tensor`). -/
def cellSum (pairs : List ((Nat × Nat) × ℚ)) (r c : Nat) : ℚ :=
  ((pairs.filter fun q => q.1.1 == r && q.1.2 == c).map Prod.snd).sum

theorem rowPairs_block : ∀ (vs : List ℚ) (c0 r0 : Nat),
    ((List.range' c0 vs.length).map (fun c => (r0, c))).zip vs = rowPairs r0 c0 vs := by
  intro vs
  induction vs with
  | nil => intro c0 r0; rfl
  | cons v vs ih =>
    intro c0 r0
    rw [List.length_cons, List.range'_succ c0 vs.length 1, List.map_cons,
      List.zip_cons_cons, rowPairs, ih (c0 + 1) r0]

theorem expFrom_zip : ∀ (vss : List (List ℚ)) (r0 : Nat),
    (expFrom r0 (vss.map List.length)).zip vss.flatten = zipSpec r0 vss := by
  intro vss
  induction vss with
  | nil => intro r0; rfl
  | cons vs rest ih =>
    intro r0
    rw [List.map_cons, expFrom, List.flatten_cons,
      List.zip_append (by simp), zipSpec, ih (r0 + 1),
      List.range_eq_range' vs.length, rowPairs_block vs 0 r0]

theorem cellSum_append (p q : List ((Nat × Nat) × ℚ)) (r c : Nat) :
    cellSum (p ++ q) r c = cellSum p r c + cellSum q r c := by
  simp [cellSum, List.filter_append]

theorem cellSum_rowPairs : ∀ (vs : List ℚ) (c0 r0 r c : Nat),
    cellSum (rowPairs r0 c0 vs) r c
      = if r = r0 ∧ c0 ≤ c then vs.getD (c - c0) 0 else 0 := by
  intro vs
  induction vs with
  | nil =>
    intro c0 r0 r c
    rw [rowPairs]
    show (0 : ℚ) = _
    split
    · rw [List.getD]
      simp
    · rfl
  | cons v vs ih =>
    intro c0 r0 r c
    rw [rowPairs]
    by_cases hmatch : r0 = r ∧ c0 = c
    · obtain ⟨h1, h2⟩ := hmatch
      subst h1
      subst h2
      have hfilter : cellSum (((r0, c0), v) :: rowPairs r0 (c0 + 1) vs) r0 c0
          = v + cellSum (rowPairs r0 (c0 + 1) vs) r0 c0 := by
        simp [cellSum]
      rw [hfilter, ih (c0 + 1) r0 r0 c0, if_neg (by omega), if_pos ⟨rfl, Nat.le_refl c0⟩]
      simp
    · have hcond : (((r0, c0), v).1.1 == r && ((r0, c0), v).1.2 == c) = false := by
        by_cases h1 : r0 = r
        · by_cases h2 : c0 = c
          · exact absurd ⟨h1, h2⟩ hmatch
          · simp [h2]
        · simp [h1]
      have hfilter : cellSum (((r0, c0), v) :: rowPairs r0 (c0 + 1) vs) r c
          = cellSum (rowPairs r0 (c0 + 1) vs) r c := by
        simp only [cellSum, List.filter_cons, hcond]
        rfl
      rw [hfilter, ih (c0 + 1) r0 r c]
      by_cases hr : r = r0
      · subst hr
        by_cases hc : c0 ≤ c
        · have hc1 : c0 + 1 ≤ c := by
            rcases Nat.lt_or_ge c0 c with h | h
            · omega
            · exact absurd ⟨rfl, by omega⟩ hmatch
          rw [if_pos ⟨rfl, hc1⟩, if_pos ⟨rfl, hc⟩,
            show c - c0 = (c - (c0 + 1)) + 1 by omega, List.getD_cons_succ]
        · rw [if_neg (by omega), if_neg (by omega)]
      · rw [if_neg (fun h => hr h.1), if_neg (fun h => hr h.1)]

theorem cellSum_zipSpec_lt : ∀ (vss : List (List ℚ)) (r0 r c : Nat), r < r0 →
    cellSum (zipSpec r0 vss) r c = 0 := by
  intro vss
  induction vss with
  | nil => intro r0 r c _; rfl
  | cons vs rest ih =>
    intro r0 r c h
    rw [zipSpec, cellSum_append, cellSum_rowPairs, if_neg (by omega),
      ih (r0 + 1) r c (by omega)]
    simp

theorem cellSum_zipSpec : ∀ (vss : List (List ℚ)) (r0 r c : Nat),
    cellSum (zipSpec r0 vss) (r0 + r) c = (vss.getD r []).getD c 0 := by
  intro vss
  induction vss with
  | nil =>
    intro r0 r c
    show (0 : ℚ) = _
    rw [List.getD, List.getD]
    simp
  | cons vs rest ih =>
    intro r0 r c
    rw [zipSpec, cellSum_append, cellSum_rowPairs]
    cases r with
    | zero =>
      rw [if_pos ⟨rfl, Nat.zero_le c⟩, cellSum_zipSpec_lt rest (r0 + 1) (r0 + 0) c (by omega)]
      simp
    | succ r' =>
      rw [if_neg (by omega), show r0 + (r' + 1) = (r0 + 1) + r' by omega, ih (r0 + 1) r' c]
      simp

theorem get_sparse_tensor_shape (values : List ℚ) (indices : List (Nat × Nat))
    (nr seq : Nat) : (_get_sparse_tensor values indices nr seq).shape = [nr, seq] := rfl

theorem get_sparse_tensor_data_length (values : List ℚ) (indices : List (Nat × Nat))
    (nr seq : Nat) : (_get_sparse_tensor values indices nr seq).data.length = nr * seq := by
  simp [_get_sparse_tensor]

theorem get_sparse_tensor_cell (values : List ℚ) (indices : List (Nat × Nat))
    (nr seq r c : Nat) (hr : r < nr) (hc : c < seq) :
    (_get_sparse_tensor values indices nr seq).data.getD (r * seq + c) 0
      = cellSum (indices.zip values) r c := by
  have hp : r * seq + c < nr * seq := by
    calc r * seq + c < r * seq + seq := by omega
    _ = (r + 1) * seq := by ring
    _ ≤ nr * seq := Nat.mul_le_mul_right seq hr
  have hcomm : r * seq = seq * r := Nat.mul_comm r seq
  have hdiv : (r * seq + c) / seq = r := by
    rw [hcomm, Nat.mul_add_div (by omega), Nat.div_eq_of_lt hc, Nat.add_zero]
  have hmod : (r * seq + c) % seq = c := by
    rw [hcomm, Nat.mul_add_mod, Nat.mod_eq_of_lt hc]
  simp only [_get_sparse_tensor]
  rw [List.getD_eq_getElem?_getD, List.getElem?_map]
  rw [List.getElem?_range hp]
  simp only [Option.map_some', Option.getD_some]
  rw [hdiv, hmod]
  rfl

/-- The output phase on a list feature's accumulated entry: a dense
`(num_rows, seq_limit)` tensor whose cell `(r, c)` holds the `c`-th value of
row `r` (and the implicit zero when `c` is at or beyond row `r`'s length). -/
theorem outputVal_ragged_spec (msl : Option Nat) (vss : List (List ℚ)) (hne : vss ≠ []) :
    ∃ t : STensor,
      outputVal msl (.ragged vss.flatten (vss.map List.length)) = .tensor t ∧
      t.shape = [vss.length, pyOr msl ((vss.map List.length).headD 0)] ∧
      t.data.length = vss.length * pyOr msl ((vss.map List.length).headD 0) ∧
      ∀ r c, r < vss.length → c < pyOr msl ((vss.map List.length).headD 0) →
        t.data.getD (r * pyOr msl ((vss.map List.length).headD 0) + c) 0
          = (vss.getD r []).getD c 0 := by
  have hne' : vss.map List.length ≠ [] := by simpa using hne
  have hflat : vss.flatten.length = (vss.map List.length).sum := List.length_flatten vss
  have hidx : raggedIndices vss.flatten (vss.map List.length)
      = expFrom 0 (vss.map List.length) := raggedIndices_spec _ _ hne' hflat
  have hnum : (buildOffsets (vss.map List.length)).length = vss.length := by
    rw [buildOffsets_eq_scanFrom _ hne', scanFrom_length]
    simp
  refine ⟨_get_sparse_tensor vss.flatten
      (raggedIndices vss.flatten (vss.map List.length))
      (buildOffsets (vss.map List.length)).length
      (pyOr msl ((vss.map List.length).headD 0)), rfl, ?_, ?_, ?_⟩
  · rw [get_sparse_tensor_shape, hnum]
  · rw [get_sparse_tensor_data_length, hnum]
  · intro r c hr hc
    rw [get_sparse_tensor_cell _ _ _ _ r c (by omega) hc, hidx, expFrom_zip vss 0]
    have h := cellSum_zipSpec vss 0 r c
    rw [Nat.zero_add] at h
    exact h

/-! ## The schema-mutation helper `_augment_schema`

`_augment_schema` (source lines 132-168) drives the external `merlin.schema`
library.  Its collaborators (`Schema.select_by_name`, `ColumnSchema`,
`with_tags`, item assignment) are modelled from the spec: selection restricts
to the named columns and fails with a lookup error on a missing name; tag
application is additive; item assignment replaces the column of that name. -/

/-- A `merlin.schema.Tags` value used by `_augment_schema`. -/
inductive MTag
  | CATEGORICAL
  | CONTINUOUS
  | TARGET
deriving DecidableEq

/-- Modelled from the spec: a `merlin.schema.ColumnSchema` as used by
`_augment_schema` — name, tag set, opaque dtype, list/ragged flags and a
property dict (`value_count` holding a `{"max": m}` dict). -/
structure ColumnSchema where
  name : String
  tags : List MTag
  dtype : String
  is_list : Bool
  is_ragged : Bool
  properties : List (String × List (String × Nat))
deriving DecidableEq

/-- Modelled from the spec: `merlin.schema.Schema`, an ordered collection of
column schemas. -/
structure MSchema where
  cols : List ColumnSchema
deriving DecidableEq

/-- First-occurrence deduplication (Python dict-comprehension key order). -/
def dedupFirst : List String → List String
  | [] => []
  | n :: ns => n :: (dedupFirst ns).filter (fun m => m != n)

/-- Modelled from the spec: `Schema.select_by_name` returns a schema of the
named columns; requesting a name not present fails with a lookup error from
the schema library, not caught or translated. -/
def select_by_name (s : MSchema) (names : List String) : Except String MSchema :=
  if names.all (fun n => s.cols.any (fun c => c.name == n)) then
    .ok ⟨(dedupFirst names).map fun n =>
      (s.cols.find? fun c => c.name == n).getD ⟨n, [], "", false, false, []⟩⟩
  else
    .error "KeyError"

/-- Modelled from the spec: `ColumnSchema.with_tags` returns a copy with the
tag added to the column's tag set (tag application is additive). -/
def ColumnSchema.with_tags (cs : ColumnSchema) (t : MTag) : ColumnSchema :=
  { cs with tags := if t ∈ cs.tags then cs.tags else cs.tags ++ [t] }

/-- Modelled from the spec: `schema[name] = g(schema[name])` — rewrite the
column of that name in place. -/
def MSchema.modifyCol (s : MSchema) (n : String) (g : ColumnSchema → ColumnSchema) :
    MSchema :=
  ⟨s.cols.map fun c => if c.name = n then g c else c⟩

/-- The rebuild of one sparse column (source lines 155-166): set the
`value_count` property when `sparse_max` has an entry for the column, mark it
as a list, and set raggedness to the inverse of `sparse_as_dense`. -/
def sparseRebuild (sparse_max : List (String × Nat)) (sparse_as_dense : Bool)
    (col : String) (cs : ColumnSchema) : ColumnSchema :=
  let properties :=
    match alookup col sparse_max with
    | some m => aupdate "value_count" [("max", m)] cs.properties
    | none => cs.properties
  { name := cs.name, tags := cs.tags, dtype := cs.dtype,
    is_list := true, is_ragged := !sparse_as_dense, properties := properties }

/-- `_augment_schema(schema, cats, conts, labels, sparse_names, sparse_max,
sparse_as_dense)` for list-valued `labels` (the `isinstance(labels, str)`
wrapping branch does not apply); Python `None` arguments are embedded as empty
lists. -/
def _augment_schema (schema : MSchema) (cats conts labels sparse_names : List String)
    (sparse_max : List (String × Nat)) (sparse_as_dense : Bool) :
    Except String MSchema := do
  let schema ← select_by_name schema (conts ++ cats ++ labels)
  let schema := labels.foldl (fun s l => s.modifyCol l (fun c => c.with_tags .TARGET)) schema
  let schema := cats.foldl (fun s l => s.modifyCol l (fun c => c.with_tags .CATEGORICAL)) schema
  let schema := conts.foldl (fun s l => s.modifyCol l (fun c => c.with_tags .CONTINUOUS)) schema
  let schema := sparse_names.foldl
    (fun s col => s.modifyCol col (sparseRebuild sparse_max sparse_as_dense col)) schema
  return schema

theorem with_tags_name (c : ColumnSchema) (t : MTag) : (c.with_tags t).name = c.name := rfl

theorem with_tags_self_mem (c : ColumnSchema) (t : MTag) : t ∈ (c.with_tags t).tags := by
  by_cases h : t ∈ c.tags <;> simp [ColumnSchema.with_tags, h]

theorem with_tags_mono (c : ColumnSchema) (t u : MTag) (h : u ∈ c.tags) :
    u ∈ (c.with_tags t).tags := by
  by_cases h' : t ∈ c.tags <;> simp [ColumnSchema.with_tags, h', h]

theorem with_tags_idem (c : ColumnSchema) (t : MTag) :
    (c.with_tags t).with_tags t = c.with_tags t := by
  have h : t ∈ (if t ∈ c.tags then c.tags else c.tags ++ [t]) := with_tags_self_mem c t
  rw [ColumnSchema.with_tags, ColumnSchema.with_tags]
  simp only [if_pos h]

theorem aupdate_idem (k : String) (v : α) (l : List (String × α)) :
    aupdate k v (aupdate k v l) = aupdate k v l := by
  induction l with
  | nil => simp [aupdate]
  | cons hd tl ih =>
    obtain ⟨k', v'⟩ := hd
    by_cases h : k' = k
    · simp [aupdate, h]
    · simp [aupdate, h, ih]

/-- A fold of name-indexed in-place column rewrites is a single map: each
column is rewritten (once, by idempotence) exactly when its name is listed. -/
theorem modifyFold_cols (G : String → ColumnSchema → ColumnSchema)
    (hname : ∀ n c, (G n c).name = c.name)
    (hidem : ∀ n c, G n (G n c) = G n c) :
    ∀ (ns : List String) (s : MSchema),
      (ns.foldl (fun s l => s.modifyCol l (G l)) s).cols
        = s.cols.map (fun c => if c.name ∈ ns then G c.name c else c) := by
  intro ns
  induction ns with
  | nil =>
    intro s
    simp
  | cons n ns ih =>
    intro s
    rw [List.foldl_cons, ih, MSchema.modifyCol, List.map_map]
    apply List.map_congr_left
    intro c _
    show (fun c => if c.name ∈ ns then G c.name c else c)
        ((fun c => if c.name = n then G n c else c) c)
      = if c.name ∈ n :: ns then G c.name c else c
    by_cases h1 : c.name = n
    · simp only [h1, if_true, if_pos rfl, List.mem_cons, true_or]
      rw [hname n c, h1]
      by_cases h2 : n ∈ ns
      · rw [if_pos h2, hidem n c]
      · rw [if_neg h2]
    · simp only [h1, if_false, List.mem_cons]
      by_cases h2 : c.name ∈ ns
      · rw [if_pos h2, if_pos (Or.inr h2)]
      · rw [if_neg h2, if_neg (by tauto)]

theorem dedupFirst_mem : ∀ (ns : List String) (n : String), n ∈ dedupFirst ns ↔ n ∈ ns := by
  intro ns
  induction ns with
  | nil => intro n; rfl
  | cons m ns ih =>
    intro n
    by_cases h : n = m <;> simp [dedupFirst, List.mem_filter, ih, h]

theorem select_by_name_ok (s : MSchema) (names : List String)
    (h : ∀ n ∈ names, ∃ c ∈ s.cols, c.name = n) :
    select_by_name s names
      = .ok ⟨(dedupFirst names).map fun n =>
          (s.cols.find? fun c => c.name == n).getD ⟨n, [], "", false, false, []⟩⟩ := by
  have hcond : names.all (fun n => s.cols.any (fun c => c.name == n)) = true := by
    rw [List.all_eq_true]
    intro n hn
    rw [List.any_eq_true]
    obtain ⟨c, hc, he⟩ := h n hn
    exact ⟨c, hc, beq_iff_eq.mpr he⟩
  rw [select_by_name, if_pos hcond]

theorem selected_col_name (s : MSchema) (n : String) :
    ((s.cols.find? fun c => c.name == n).getD ⟨n, [], "", false, false, []⟩).name = n := by
  cases hfind : s.cols.find? (fun c => c.name == n) with
  | none => rfl
  | some c =>
    have hp := List.find?_some hfind
    rw [Option.getD_some]
    exact beq_iff_eq.mp hp

theorem selected_names (s : MSchema) (names : List String) :
    (((dedupFirst names).map fun n =>
        (s.cols.find? fun c => c.name == n).getD ⟨n, [], "", false, false, []⟩).map
      ColumnSchema.name) = dedupFirst names := by
  rw [List.map_map]
  have h : ∀ n ∈ dedupFirst names,
      (ColumnSchema.name ∘ fun n =>
        (s.cols.find? fun c => c.name == n).getD ⟨n, [], "", false, false, []⟩) n = n := by
    intro n _
    exact selected_col_name s n
  rw [List.map_congr_left h]
  exact List.map_id' (dedupFirst names)

/-! ### Remaining small helpers -/

theorem pyOr_truthy (msl : Option Nat) (d : Nat) (h : truthy msl = true) :
    pyOr msl d = msl.getD 0 := by
  cases msl with
  | none => simp [truthy] at h
  | some n =>
    simp only [truthy, bne_iff_ne, ne_eq, decide_eq_true_eq] at h
    simp [pyOr, h]

theorem pyOr_falsy (msl : Option Nat) (d : Nat) (h : truthy msl = false) :
    pyOr msl d = d := by
  cases msl with
  | none => rfl
  | some n =>
    have hn : n = 0 := by
      by_cases h0 : n = 0
      · exact h0
      · simp [truthy, h0] at h
    simp [pyOr, hn]

theorem map_fst_map_value (g : α → β) (l : List (String × α)) :
    (l.map fun kv => (kv.1, g kv.2)).map Prod.fst = l.map Prod.fst := by
  rw [List.map_map]
  rfl

theorem expFrom_mem : ∀ (ls : List Nat) (r0 : Nat) (rc : Nat × Nat),
    rc ∈ expFrom r0 ls → ∃ j, j < ls.length ∧ rc.1 = r0 + j ∧ rc.2 < ls.getD j 0 := by
  intro ls
  induction ls with
  | nil => intro r0 rc h; exact absurd h (List.not_mem_nil rc)
  | cons l ls ih =>
    intro r0 rc h
    rw [expFrom, List.mem_append] at h
    rcases h with h1 | h2
    · rw [List.mem_map] at h1
      obtain ⟨c, hc, he⟩ := h1
      rw [List.mem_range] at hc
      refine ⟨0, by simp, ?_, by rw [← he]; simpa using hc⟩
      rw [← he]
      rfl

    · obtain ⟨j, hj, h1, h2⟩ := ih (r0 + 1) rc h2
      exact ⟨j + 1, by simpa using hj, by omega, by simpa using h2⟩

/-- The sum of a list whose members all equal `a`. -/
theorem sum_of_uniform : ∀ (l : List Nat) (a : Nat),
    (∀ x ∈ l, x = a) → l.sum = l.length * a := by
  intro l a
  induction l with
  | nil => intro _; simp
  | cons x xs ih =>
    intro h
    rw [List.sum_cons, List.length_cons,
      ih (fun y hy => h y (List.mem_cons_of_mem _ hy)), h x (List.mem_cons_self ..)]
    ring

/-- Indexing the concatenation of equal-length rows: position `r * L + c` of
the flattened values is the `c`-th value of row `r`. -/
theorem flatten_getD_uniform : ∀ (vss : List (List ℚ)) (L : Nat),
    (∀ vs ∈ vss, vs.length = L) → ∀ (r c : Nat), r < vss.length → c < L →
    vss.flatten.getD (r * L + c) 0 = (vss.getD r []).getD c 0 := by
  intro vss
  induction vss with
  | nil =>
    intro L _ r c hr _
    simp at hr
  | cons vs rest ih =>
    intro L hall r c hr hc
    have hvs : vs.length = L := hall vs (List.mem_cons_self ..)
    rw [List.flatten_cons]
    cases r with
    | zero =>
      rw [Nat.zero_mul, Nat.zero_add, List.getD_append _ _ _ _ (by omega)]
      rfl
    | succ r' =>
      have hpos : (r' + 1) * L + c = vs.length + (r' * L + c) := by
        rw [hvs]
        ring
      rw [hpos, List.getD_append_right _ _ _ _ (by omega),
        show vs.length + (r' * L + c) - vs.length = r' * L + c by omega,
        ih L (fun v hv => hall v (List.mem_cons_of_mem _ hv)) r' c (by simpa using hr) hc]
      rfl

/-- The length of row `r`, read off the accumulated per-row length list. -/
theorem map_length_getD (vss : List (List ℚ)) (r : Nat) (hr : r < vss.length) :
    (vss.map List.length).getD r 0 = (vss.getD r []).length := by
  rw [List.getD_eq_getElem (vss.map List.length) 0 (by simpa using hr),
    List.getD_eq_getElem vss [] hr, List.getElem_map]

/-- Projection of an accumulated list-feature entry to its flat-value count
and per-row lengths, used to state concrete facts without forcing the
(random) values. -/
def raggedShape : Option Accum → Option (Nat × List Nat)
  | some (.ragged flat lens) => some (flat.length, lens)
  | _ => none

/-! ## The claims -/

/-- **C1.** For every list feature with declared max value-count
`L = value_count.max`, no `max_session_length` given, and `N ≥ 1` rows
(feature names pairwise distinct, as in any well-formed schema): whatever
`(flat values, per-row lengths)` pair the generator loop accumulated for the
feature — `flat` is the concatenation of the per-row draws in row order —
every row was drawn with exactly `L` values, and the returned entry is a
dense tensor of shape `(N, L)` whose cell `(r, c)` holds value `flat[r*L+c]`,
i.e. row `r`'s generated values at columns `0 .. len_r - 1` in order, with
every cell at a column at or beyond row `r`'s true length zero. -/
theorem claim_C1_padded_list_feature (rng : Rng) (schema : Schema) (N minsl : Nat)
    (f : Feature) (vc : ValueCount)
    (hnd : (schema.feature.map Feature.name).Nodup)
    (hf : f ∈ schema.feature) (hvc : f.value_count = some vc) (hN : 1 ≤ N) :
    ∀ flat lens,
      alookup f.name (genLoop rng schema N none minsl).1 = some (.ragged flat lens) →
      ∃ t : STensor,
        alookup f.name (random_data_from_schema rng schema N none minsl)
          = some (.tensor t) ∧
        lens.length = N ∧ (∀ l ∈ lens, l = vc.max) ∧
        flat.length = N * vc.max ∧
        t.shape = [N, vc.max] ∧
        (∀ r c, r < N → c < vc.max →
          t.data.getD (r * vc.max + c) 0 = flat.getD (r * vc.max + c) 0) ∧
        (∀ r c, r < N → lens.getD r 0 ≤ c → c < vc.max →
          t.data.getD (r * vc.max + c) 0 = 0) := by
  intro flat lens hlookup
  obtain ⟨vss, hlen, hlook, hspec⟩ :=
    loopRows_list_feature rng schema N none minsl f vc hnd hf hvc N hN
  rw [genLoop_eq_loopRows, hlook] at hlookup
  injection hlookup with h1
  injection h1 with hflat hlens
  subst hflat
  subst hlens
  have hall : ∀ vs ∈ vss, vs.length = vc.max := by
    intro vs hvs
    obtain ⟨sl, hsl, hlen'⟩ := hspec vs hvs
    have hnone : sl = none := by simpa [slSpec, truthy] using hsl
    rw [hnone] at hlen'
    exact hlen'
  have hne : vss ≠ [] := by
    intro h
    rw [h] at hlen
    simp at hlen
    omega
  have hout : alookup f.name (random_data_from_schema rng schema N none minsl)
      = some (outputVal none (.ragged vss.flatten (vss.map List.length))) := by
    rw [random_data_from_schema, alookup_map_value, genLoop_eq_loopRows, hlook]
    rfl
  obtain ⟨t, hov, hshape, hdlen, hcell⟩ := outputVal_ragged_spec none vss hne
  have hpy : pyOr none ((vss.map List.length).headD 0) = vc.max := by
    show (vss.map List.length).headD 0 = vc.max
    match vss, hne with
    | vs :: rest, _ =>
      simp only [List.map_cons, List.headD_cons]
      exact hall vs (List.mem_cons_self ..)
  rw [hpy] at hshape hcell
  refine ⟨t, by rw [hout, hov], by rw [List.length_map, hlen], ?_, ?_, ?_, ?_, ?_⟩
  · intro l hl
    rw [List.mem_map] at hl
    obtain ⟨vs, hvs, hvl⟩ := hl
    rw [← hvl]
    exact hall vs hvs
  · rw [List.length_flatten,
      sum_of_uniform (vss.map List.length) vc.max ?_, List.length_map, hlen]
    intro x hx
    rw [List.mem_map] at hx
    obtain ⟨vs, hvs, hvl⟩ := hx
    rw [← hvl]
    exact hall vs hvs
  · rw [hshape, hlen]
  · intro r c hr hc
    rw [hcell r c (by omega) hc]
    exact (flatten_getD_uniform vss vc.max hall r c (by omega) hc).symm
  · intro r c hr hlc hc
    rw [hcell r c (by omega) hc]
    apply List.getD_eq_default
    rw [map_length_getD vss r (by omega)] at hlc
    exact hlc

/-- **C1 witness**: a concrete two-row run over a single-list-feature schema;
the accumulated entry of that run is indeed a ragged pair, with 6 flat values
in rows of length 3. -/
theorem claim_C1_witness :
    ((([⟨"a", some ⟨3⟩, some ⟨10⟩, none⟩] : List Feature).map Feature.name).Nodup ∧
      (⟨"a", some ⟨3⟩, some ⟨10⟩, none⟩ : Feature) ∈
        (⟨[⟨"a", some ⟨3⟩, some ⟨10⟩, none⟩]⟩ : Schema).feature ∧
      (⟨"a", some ⟨3⟩, some ⟨10⟩, none⟩ : Feature).value_count = some ⟨3⟩ ∧ 1 ≤ 2) ∧
    raggedShape (alookup "a" (genLoop ⟨fun _ => 0, fun n => n, fun _ => 0⟩
        ⟨[⟨"a", some ⟨3⟩, some ⟨10⟩, none⟩]⟩ 2 none 5).1) = some (6, [3, 3]) ∧
    (∀ flat lens,
      alookup "a" (genLoop ⟨fun _ => 0, fun n => n, fun _ => 0⟩
          ⟨[⟨"a", some ⟨3⟩, some ⟨10⟩, none⟩]⟩ 2 none 5).1 = some (.ragged flat lens) →
      ∃ t : STensor,
        alookup "a" (random_data_from_schema ⟨fun _ => 0, fun n => n, fun _ => 0⟩
            ⟨[⟨"a", some ⟨3⟩, some ⟨10⟩, none⟩]⟩ 2 none 5) = some (.tensor t) ∧
        lens.length = 2 ∧ (∀ l ∈ lens, l = (3 : Nat)) ∧
        flat.length = 2 * 3 ∧
        t.shape = [2, 3] ∧
        (∀ r c, r < 2 → c < 3 →
          t.data.getD (r * 3 + c) 0 = flat.getD (r * 3 + c) 0) ∧
        (∀ r c, r < 2 → lens.getD r 0 ≤ c → c < 3 →
          t.data.getD (r * 3 + c) 0 = 0)) :=
  ⟨⟨by decide, by decide, rfl, by decide⟩, by decide,
    claim_C1_padded_list_feature ⟨fun _ => 0, fun n => n, fun _ => 0⟩
      ⟨[⟨"a", some ⟨3⟩, some ⟨10⟩, none⟩]⟩ 2 5 ⟨"a", some ⟨3⟩, some ⟨10⟩, none⟩ ⟨3⟩
      (by decide) (by decide) rfl (by decide)⟩

/-- **C4.** Every value generated for a feature carrying an integer-domain
constraint with maximum `M ≥ 2` — by the draw block of
`random_data_from_schema` (source lines 49-56), list or not, at any stream
position and session length — is an integer `≥ 1` and `< M`.  (For `M ≤ 1`
`torch.randint(1, M, ...)` raises, so no value is generated.) -/
theorem claim_C4_int_domain_range (rng : Rng) (sl : Option Nat) (f : Feature)
    (st : RState) (M : Nat) (hint : f.int_domain = some ⟨M⟩) (hM : 2 ≤ M) :
    ∀ q ∈ (drawFor rng sl f st).1.data, ∃ k : Nat, 1 ≤ k ∧ k < M ∧ q = (k : ℚ) :=
  drawFor_int_values rng sl f st M hint hM

/-- **C4 witness**: a concrete scalar integer feature with `M = 5`. -/
theorem claim_C4_witness :
    ((⟨"i", none, some ⟨5⟩, none⟩ : Feature).int_domain = some ⟨5⟩ ∧ 2 ≤ 5) ∧
    (∀ q ∈ (drawFor ⟨fun _ => 0, fun n => n, fun _ => 0⟩ none
        ⟨"i", none, some ⟨5⟩, none⟩ ⟨0, 0, 0⟩).1.data,
      ∃ k : Nat, 1 ≤ k ∧ k < 5 ∧ q = (k : ℚ)) :=
  ⟨⟨rfl, by decide⟩,
    claim_C4_int_domain_range ⟨fun _ => 0, fun n => n, fun _ => 0⟩ none
      ⟨"i", none, some ⟨5⟩, none⟩ ⟨0, 0, 0⟩ 5 rfl (by decide)⟩

/-- **C9.** For a fixed state of the random sources, two invocations of
`random_data_from_schema` with identical schema, `num_rows`,
`max_session_length`, `min_session_length` (and device) produce identical
output mappings: the output depends only on the draws the streams yield. -/
theorem claim_C9_deterministic (rng1 rng2 : Rng) (schema : Schema) (N : Nat)
    (msl : Option Nat) (minsl : Nat)
    (hpy : ∀ n, rng1.pyInts n = rng2.pyInts n)
    (hti : ∀ n, rng1.torchInts n = rng2.torchInts n)
    (htr : ∀ n, rng1.torchReals n = rng2.torchReals n) :
    random_data_from_schema rng1 schema N msl minsl
      = random_data_from_schema rng2 schema N msl minsl := by
  have heq : rng1 = rng2 := by
    obtain ⟨p1, t1, r1⟩ := rng1
    obtain ⟨p2, t2, r2⟩ := rng2
    simp only [Rng.mk.injEq]
    exact ⟨funext hpy, funext hti, funext htr⟩
  rw [heq]

/-- **C9 witness**: two syntactically different but pointwise-equal random
sources on a concrete schema. -/
theorem claim_C9_witness :
    ((∀ n, (⟨fun n => n, fun n => n, fun _ => 0⟩ : Rng).pyInts n
        = (⟨fun n => 0 + n, fun n => n + 0, fun _ => 0⟩ : Rng).pyInts n) ∧
      (∀ n, (⟨fun n => n, fun n => n, fun _ => 0⟩ : Rng).torchInts n
        = (⟨fun n => 0 + n, fun n => n + 0, fun _ => 0⟩ : Rng).torchInts n) ∧
      (∀ n, (⟨fun n => n, fun n => n, fun _ => 0⟩ : Rng).torchReals n
        = (⟨fun n => 0 + n, fun n => n + 0, fun _ => 0⟩ : Rng).torchReals n)) ∧
    random_data_from_schema ⟨fun n => n, fun n => n, fun _ => 0⟩
        ⟨[⟨"a", some ⟨3⟩, some ⟨10⟩, none⟩]⟩ 2 (some 4) 2
      = random_data_from_schema ⟨fun n => 0 + n, fun n => n + 0, fun _ => 0⟩
        ⟨[⟨"a", some ⟨3⟩, some ⟨10⟩, none⟩]⟩ 2 (some 4) 2 :=
  ⟨⟨fun n => (Nat.zero_add n).symm, fun _ => rfl, fun _ => rfl⟩,
    claim_C9_deterministic ⟨fun n => n, fun n => n, fun _ => 0⟩
      ⟨fun n => 0 + n, fun n => n + 0, fun _ => 0⟩
      ⟨[⟨"a", some ⟨3⟩, some ⟨10⟩, none⟩]⟩ 2 (some 4) 2
      (fun n => (Nat.zero_add n).symm) (fun _ => rfl) (fun _ => rfl)⟩

/-- Projection of an output entry to its tensor shape, used to state concrete
facts about an entry without forcing its (random) values. -/
def entryShape : Option Accum → Option (List Nat)
  | some (.tensor t) => some t.shape
  | _ => none

/-- **C2 counterexample.** With `N = 1` rows the claimed leading dimension
fails: the single row of an embedding feature of declared shape `(2, 3)` is
returned bare (the `torch.stack` only happens in the `name in data` branch),
so the output's leading dimension is 2, not `N = 1`. -/
theorem claim_C2_counterexample :
    entryShape (alookup "e" (random_data_from_schema ⟨fun _ => 0, fun _ => 0, fun _ => 0⟩
        ⟨[⟨"e", none, none, some ⟨[2, 3]⟩⟩]⟩ 1 none 5)) = some [2, 3] ∧
    ([2, 3] : List Nat).headD 0 ≠ 1 :=
  ⟨by decide, by decide⟩

/-- **C2 (amended).** For every embedding feature (declared leading dimension
`> 1`, not a list feature) and every row count `N ≥ 2`, the returned entry is
a tensor whose leading dimension is exactly `N` and whose remaining dimensions
equal the declared shape.  (At `N = 1` the bare row tensor of the declared
shape is returned instead.) -/
theorem claim_C2_embedding_shape (rng : Rng) (schema : Schema) (N : Nat)
    (msl : Option Nat) (minsl : Nat) (f : Feature) (s : ShapeProto)
    (hnd : (schema.feature.map Feature.name).Nodup)
    (hf : f ∈ schema.feature) (hvc : f.value_count = none)
    (hsh : f.shape = some s) (hdim : 1 < s.dims.headD 0) (hN : 2 ≤ N) :
    ∃ t : STensor,
      alookup f.name (random_data_from_schema rng schema N msl minsl)
        = some (.tensor t) ∧
      t.shape = N :: s.dims := by
  have hemb : f.is_embedding = true := by
    simp only [Feature.is_embedding, hsh]
    rw [decide_eq_true_eq]
    exact hdim
  obtain ⟨_, _, _, ihN⟩ :=
    loopRows_embedding rng schema N msl minsl f hnd hf hvc hemb hN N (Nat.le_refl N)
  obtain ⟨t, hlook, hts⟩ := ihN rfl
  have hout : alookup f.name (random_data_from_schema rng schema N msl minsl)
      = some (outputVal msl (.tensor t)) := by
    rw [random_data_from_schema, alookup_map_value, genLoop_eq_loopRows, hlook]
    rfl
  refine ⟨t, by rw [hout]; rfl, ?_⟩
  rw [hts]
  simp [Feature.shapeDims, hsh]

/-- **C2 witness**: a concrete three-row run over an embedding feature of
shape `(2, 3)`. -/
theorem claim_C2_witness :
    ((([⟨"e", none, none, some ⟨[2, 3]⟩⟩] : List Feature).map Feature.name).Nodup ∧
      (⟨"e", none, none, some ⟨[2, 3]⟩⟩ : Feature) ∈
        (⟨[⟨"e", none, none, some ⟨[2, 3]⟩⟩]⟩ : Schema).feature ∧
      (⟨"e", none, none, some ⟨[2, 3]⟩⟩ : Feature).value_count = none ∧
      (⟨"e", none, none, some ⟨[2, 3]⟩⟩ : Feature).shape = some ⟨[2, 3]⟩ ∧
      1 < ([2, 3] : List Nat).headD 0 ∧ 2 ≤ 3) ∧
    (∃ t : STensor,
      alookup "e" (random_data_from_schema ⟨fun _ => 0, fun _ => 0, fun _ => 0⟩
          ⟨[⟨"e", none, none, some ⟨[2, 3]⟩⟩]⟩ 3 none 5) = some (.tensor t) ∧
      t.shape = 3 :: [2, 3]) :=
  ⟨⟨by decide, by decide, rfl, rfl, by decide, by decide⟩,
    claim_C2_embedding_shape ⟨fun _ => 0, fun _ => 0, fun _ => 0⟩
      ⟨[⟨"e", none, none, some ⟨[2, 3]⟩⟩]⟩ 3 none 5
      ⟨"e", none, none, some ⟨[2, 3]⟩⟩ ⟨[2, 3]⟩
      (by decide) (by decide) rfl rfl (by decide) (by decide)⟩

/-- **C3 counterexample.** Passing `max_session_length = 0` — given, but falsy
under Python truthiness — does not make the padded width 0: the width is the
declared max value-count (here 2). -/
theorem claim_C3_counterexample :
    entryShape (alookup "a" (random_data_from_schema ⟨fun _ => 0, fun n => n, fun _ => 0⟩
        ⟨[⟨"a", some ⟨2⟩, some ⟨10⟩, none⟩]⟩ 1 (some 0) 5)) = some [1, 2] ∧
    some [1, 2] ≠ some [1, (some 0 : Option Nat).getD 0] :=
  ⟨by decide, by decide⟩

/-- **C3 (amended).** For every list feature, the padded width of the dense
output equals `max_session_length` when a *nonzero* `max_session_length` is
given (a zero value is falsy in Python and acts as absent), and otherwise
equals the feature's declared max value-count — which is the first row's list
length, since absent a (truthy) session length every row is drawn with
exactly `value_count.max` values. -/
theorem claim_C3_padded_width (rng : Rng) (schema : Schema) (N : Nat)
    (msl : Option Nat) (minsl : Nat) (f : Feature) (vc : ValueCount)
    (hnd : (schema.feature.map Feature.name).Nodup)
    (hf : f ∈ schema.feature) (hvc : f.value_count = some vc) (hN : 1 ≤ N)
    (_hok : truthy msl = true → minsl ≤ msl.getD 0) :
    ∃ t : STensor,
      alookup f.name (random_data_from_schema rng schema N msl minsl)
        = some (.tensor t) ∧
      t.shape = [N, if truthy msl = true then msl.getD 0 else vc.max] := by
  obtain ⟨vss, hlen, hlook, hspec⟩ :=
    loopRows_list_feature rng schema N msl minsl f vc hnd hf hvc N hN
  have hne : vss ≠ [] := by
    intro h
    rw [h] at hlen
    simp at hlen
    omega
  have hout : alookup f.name (random_data_from_schema rng schema N msl minsl)
      = some (outputVal msl (.ragged vss.flatten (vss.map List.length))) := by
    rw [random_data_from_schema, alookup_map_value, genLoop_eq_loopRows, hlook]
    rfl
  obtain ⟨t, hov, hshape, _, _⟩ := outputVal_ragged_spec msl vss hne
  have hwidth : pyOr msl ((vss.map List.length).headD 0)
      = if truthy msl = true then msl.getD 0 else vc.max := by
    by_cases ht : truthy msl = true
    · rw [if_pos ht, pyOr_truthy msl _ ht]
    · have htf : truthy msl = false := by
        rw [← Bool.not_eq_true]
        exact ht
      rw [if_neg ht, pyOr_falsy msl _ htf]
      match vss, hne with
      | vs :: rest, _ =>
        simp only [List.map_cons, List.headD_cons]
        obtain ⟨sl, hsl, hlen'⟩ := hspec vs (List.mem_cons_self ..)
        rw [slSpec, htf] at hsl
        simp only [Bool.false_eq_true, if_false] at hsl
        rw [hsl] at hlen'
        exact hlen'
  refine ⟨t, by rw [hout, hov], ?_⟩
  rw [hshape, hlen, hwidth]

/-- **C3 witness**: a concrete run with a truthy `max_session_length = 4`. -/
theorem claim_C3_witness :
    ((([⟨"a", some ⟨2⟩, some ⟨10⟩, none⟩] : List Feature).map Feature.name).Nodup ∧
      (⟨"a", some ⟨2⟩, some ⟨10⟩, none⟩ : Feature) ∈
        (⟨[⟨"a", some ⟨2⟩, some ⟨10⟩, none⟩]⟩ : Schema).feature ∧
      (⟨"a", some ⟨2⟩, some ⟨10⟩, none⟩ : Feature).value_count = some ⟨2⟩ ∧
      1 ≤ 2 ∧ (truthy (some 4) = true → 2 ≤ (some 4 : Option Nat).getD 0)) ∧
    (∃ t : STensor,
      alookup "a" (random_data_from_schema ⟨fun _ => 0, fun n => n, fun _ => 0⟩
          ⟨[⟨"a", some ⟨2⟩, some ⟨10⟩, none⟩]⟩ 2 (some 4) 2) = some (.tensor t) ∧
      t.shape = [2, if truthy (some 4) = true then (some 4 : Option Nat).getD 0 else 2]) :=
  ⟨⟨by decide, by decide, rfl, by decide, by decide⟩,
    claim_C3_padded_width ⟨fun _ => 0, fun n => n, fun _ => 0⟩
      ⟨[⟨"a", some ⟨2⟩, some ⟨10⟩, none⟩]⟩ 2 (some 4) 2
      ⟨"a", some ⟨2⟩, some ⟨10⟩, none⟩ ⟨2⟩
      (by decide) (by decide) rfl (by decide) (by decide)⟩

/-- **C5.** For every schema containing only scalar continuous features (no
`value_count`, no `int_domain`, no multi-dimensional shape) and every row
count `N ≥ 1`, `random_data_from_schema` returns a mapping with exactly one
entry per schema feature (keys equal the feature names, in order), each entry
a tensor with leading dimension exactly `N` and every element in `[0, 1)`. -/
theorem claim_C5_scalar_continuous (rng : Rng) (schema : Schema) (N : Nat)
    (msl : Option Nat) (minsl : Nat)
    (hnd : (schema.feature.map Feature.name).Nodup) (hN : 1 ≤ N)
    (hscal : ∀ f ∈ schema.feature, f.value_count = none ∧ f.int_domain = none ∧
      (f.shape = none ∨ f.shape = some ⟨[1]⟩)) :
    ((random_data_from_schema rng schema N msl minsl).map Prod.fst
        = schema.feature.map Feature.name) ∧
    ∀ f ∈ schema.feature, ∃ t : STensor,
      alookup f.name (random_data_from_schema rng schema N msl minsl)
        = some (.tensor t) ∧
      t.shape = [N] ∧ t.data.length = N ∧ ∀ q ∈ t.data, 0 ≤ q ∧ q < 1 := by
  constructor
  · rw [random_data_from_schema, map_fst_map_value, genLoop_eq_loopRows]
    exact loopRows_keys rng schema N msl minsl hnd N hN
  · intro f hf
    obtain ⟨h1, h2, h3⟩ := hscal f hf
    obtain ⟨t, hlook, hts, htl, htv⟩ :=
      loopRows_scalar_cont rng schema N msl minsl f hnd hf h1 h2 h3 N hN
    refine ⟨t, ?_, hts, htl, htv⟩
    rw [random_data_from_schema, alookup_map_value, genLoop_eq_loopRows, hlook]
    rfl

/-- **C5 witness**: a concrete three-row run over one scalar continuous
feature. -/
theorem claim_C5_witness :
    ((([⟨"s", none, none, none⟩] : List Feature).map Feature.name).Nodup ∧ 1 ≤ 3 ∧
      (∀ f ∈ ([⟨"s", none, none, none⟩] : List Feature),
        f.value_count = none ∧ f.int_domain = none ∧
        (f.shape = none ∨ f.shape = some ⟨[1]⟩))) ∧
    (((random_data_from_schema ⟨fun _ => 0, fun _ => 0, fun _ => 0⟩
        ⟨[⟨"s", none, none, none⟩]⟩ 3 none 5).map Prod.fst
      = ([⟨"s", none, none, none⟩] : List Feature).map Feature.name) ∧
    ∀ f ∈ ([⟨"s", none, none, none⟩] : List Feature), ∃ t : STensor,
      alookup f.name (random_data_from_schema ⟨fun _ => 0, fun _ => 0, fun _ => 0⟩
          ⟨[⟨"s", none, none, none⟩]⟩ 3 none 5) = some (.tensor t) ∧
      t.shape = [3] ∧ t.data.length = 3 ∧ ∀ q ∈ t.data, 0 ≤ q ∧ q < 1) :=
  ⟨⟨by decide, by decide, by decide⟩,
    claim_C5_scalar_continuous ⟨fun _ => 0, fun _ => 0, fun _ => 0⟩
      ⟨[⟨"s", none, none, none⟩]⟩ 3 none 5 (by decide) (by decide) (by decide)⟩

/-- Checks that a list feature's accumulated entry hands the sparse-to-dense
step a coordinate whose column is at or beyond
`seq_limit = max_session_length or val[1][0]` (here `max_session_length = 3`):
the out-of-range placement the claim declares unreachable. -/
def c10OutOfRange : Option Accum → Bool
  | some (.ragged flat lens) =>
    (raggedIndices flat lens).any fun rc =>
      decide (pyOr (some 3) (lens.headD 0) ≤ rc.2)
  | _ => false

/-- **C10 counterexample.** With `min_session_length = 0 ≤ max_session_length
= 3` (the claim's stated side condition), a drawn session length of 0 is falsy
and `session_length or value_count.max` falls back to the declared max 5, so
the coordinate `(0, 4)` is handed to the sparse-to-dense step with column
`4 ≥ seq_limit = 3`. -/
theorem claim_C10_counterexample :
    c10OutOfRange (alookup "a" (genLoop ⟨fun _ => 0, fun n => n, fun _ => 0⟩
        ⟨[⟨"a", some ⟨5⟩, some ⟨10⟩, none⟩]⟩ 1 (some 3) 0).1) = true ∧
    (0 : Nat) ≤ 3 :=
  ⟨by decide, by decide⟩

/-- **C10 (amended).** Assuming additionally `min_session_length ≥ 1` (so a
drawn session length is never falsy), every `(row, column)` coordinate handed
to the sparse-to-dense step satisfies `column < seq_limit`: with a truthy
`max_session_length` every per-row length is a session draw bounded by
`max_session_length = seq_limit`, and otherwise every row's length equals the
feature's `value_count.max`, which is exactly `seq_limit`. -/
theorem claim_C10_indices_in_bounds (rng : Rng) (schema : Schema) (N : Nat)
    (msl : Option Nat) (minsl : Nat) (f : Feature) (vc : ValueCount)
    (hnd : (schema.feature.map Feature.name).Nodup)
    (hf : f ∈ schema.feature) (hvc : f.value_count = some vc) (hN : 1 ≤ N)
    (hmin : 1 ≤ minsl) (hok : truthy msl = true → minsl ≤ msl.getD 0) :
    ∀ flat lens,
      alookup f.name (genLoop rng schema N msl minsl).1 = some (.ragged flat lens) →
      ∀ rc ∈ raggedIndices flat lens, rc.2 < pyOr msl (lens.headD 0) := by
  intro flat lens hlookup rc hrc
  obtain ⟨vss, hlen, hlook, hspec⟩ :=
    loopRows_list_feature rng schema N msl minsl f vc hnd hf hvc N hN
  rw [genLoop_eq_loopRows, hlook] at hlookup
  injection hlookup with h1
  injection h1 with hflat hlens
  subst hflat
  subst hlens
  have hne : vss ≠ [] := by
    intro h
    rw [h] at hlen
    simp at hlen
    omega
  have hlens_ne : vss.map List.length ≠ [] := by simpa using hne
  rw [raggedIndices_spec _ _ hlens_ne (List.length_flatten vss)] at hrc
  obtain ⟨j, hj, _, hcol⟩ := expFrom_mem _ 0 rc hrc
  have hjmem : (vss.map List.length).getD j 0 ∈ vss.map List.length := by
    rw [List.getD_eq_getElem (vss.map List.length) 0 hj]
    exact List.getElem_mem hj
  have hbound : ∀ L ∈ vss.map List.length,
      L ≤ pyOr msl ((vss.map List.length).headD 0) := by
    intro L hL
    rw [List.mem_map] at hL
    obtain ⟨vs, hvs, hvL⟩ := hL
    obtain ⟨sl, hsl, hlen'⟩ := hspec vs hvs
    by_cases ht : truthy msl = true
    · rw [pyOr_truthy msl _ ht]
      rw [slSpec, if_pos ht] at hsl
      obtain ⟨v, hv, hv1, hv2⟩ := hsl
      have hvle := hv2 (hok ht)
      rw [← hvL, hlen', hv]
      have hone : pyOr (some v) vc.max = v := by
        rw [pyOr, if_neg (by omega)]
      rw [hone]
      exact hvle
    · have htf : truthy msl = false := by
        rw [← Bool.not_eq_true]
        exact ht
      rw [pyOr_falsy msl _ htf]
      rw [slSpec, htf] at hsl
      simp only [Bool.false_eq_true, if_false] at hsl
      rw [hsl] at hlen'
      have hhead : (vss.map List.length).headD 0 = vc.max := by
        match vss, hne with
        | vs0 :: rest, _ =>
          simp only [List.map_cons, List.headD_cons]
          obtain ⟨sl0, hsl0, hlen0⟩ := hspec vs0 (List.mem_cons_self ..)
          rw [slSpec, htf] at hsl0
          simp only [Bool.false_eq_true, if_false] at hsl0
          rw [hsl0] at hlen0
          exact hlen0
      rw [hhead, ← hvL, hlen']
      exact Nat.le_refl vc.max
  exact lt_of_lt_of_le hcol (hbound _ hjmem)

/-- **C10 witness**: a concrete run with `min_session_length = 2`,
`max_session_length = 4`. -/
theorem claim_C10_witness :
    ((([⟨"a", some ⟨5⟩, some ⟨10⟩, none⟩] : List Feature).map Feature.name).Nodup ∧
      (⟨"a", some ⟨5⟩, some ⟨10⟩, none⟩ : Feature) ∈
        (⟨[⟨"a", some ⟨5⟩, some ⟨10⟩, none⟩]⟩ : Schema).feature ∧
      (⟨"a", some ⟨5⟩, some ⟨10⟩, none⟩ : Feature).value_count = some ⟨5⟩ ∧
      1 ≤ 2 ∧ 1 ≤ 2 ∧ (truthy (some 4) = true → 2 ≤ (some 4 : Option Nat).getD 0)) ∧
    (∀ flat lens,
      alookup "a" (genLoop ⟨fun _ => 0, fun n => n, fun _ => 0⟩
          ⟨[⟨"a", some ⟨5⟩, some ⟨10⟩, none⟩]⟩ 2 (some 4) 2).1
        = some (.ragged flat lens) →
      ∀ rc ∈ raggedIndices flat lens, rc.2 < pyOr (some 4) (lens.headD 0)) :=
  ⟨⟨by decide, by decide, rfl, by decide, by decide, by decide⟩,
    claim_C10_indices_in_bounds ⟨fun _ => 0, fun n => n, fun _ => 0⟩
      ⟨[⟨"a", some ⟨5⟩, some ⟨10⟩, none⟩]⟩ 2 (some 4) 2
      ⟨"a", some ⟨5⟩, some ⟨10⟩, none⟩ ⟨5⟩
      (by decide) (by decide) rfl (by decide) (by decide) (by decide)⟩

theorem tagFold_cols (t : MTag) (ns : List String) (s : MSchema) :
    (ns.foldl (fun s l => s.modifyCol l (fun c => c.with_tags t)) s).cols
      = s.cols.map (fun c => if c.name ∈ ns then c.with_tags t else c) :=
  modifyFold_cols (fun _ c => c.with_tags t) (fun _ _ => rfl)
    (fun _ c => with_tags_idem c t) ns s

theorem sparseRebuild_name (sm : List (String × Nat)) (sad : Bool) (col : String)
    (cs : ColumnSchema) : (sparseRebuild sm sad col cs).name = cs.name := rfl

theorem sparseRebuild_idem (sm : List (String × Nat)) (sad : Bool) (col : String)
    (cs : ColumnSchema) :
    sparseRebuild sm sad col (sparseRebuild sm sad col cs) = sparseRebuild sm sad col cs := by
  simp only [sparseRebuild]
  cases halk : alookup col sm with
  | none => rfl
  | some m => simp [aupdate_idem]

theorem sparseFold_cols (sm : List (String × Nat)) (sad : Bool) (ns : List String)
    (s : MSchema) :
    (ns.foldl (fun s col => s.modifyCol col (sparseRebuild sm sad col)) s).cols
      = s.cols.map (fun c => if c.name ∈ ns then sparseRebuild sm sad c.name c else c) :=
  modifyFold_cols (sparseRebuild sm sad) (fun n c => sparseRebuild_name sm sad n c)
    (fun n c => sparseRebuild_idem sm sad n c) ns s

theorem condTag_name (t : MTag) (ns : List String) (c : ColumnSchema) :
    (if c.name ∈ ns then c.with_tags t else c).name = c.name := by
  by_cases h : c.name ∈ ns
  · rw [if_pos h]
    rfl
  · rw [if_neg h]

theorem condTag_mono (t u : MTag) (ns : List String) (c : ColumnSchema)
    (h : u ∈ c.tags) : u ∈ (if c.name ∈ ns then c.with_tags t else c).tags := by
  by_cases h' : c.name ∈ ns
  · rw [if_pos h']
    exact with_tags_mono c t u h
  · rw [if_neg h']
    exact h

theorem condTag_self (t : MTag) (ns : List String) (c : ColumnSchema)
    (h : c.name ∈ ns) : t ∈ (if c.name ∈ ns then c.with_tags t else c).tags := by
  rw [if_pos h]
  exact with_tags_self_mem c t

theorem map_name_condTag (t : MTag) (ns : List String) (l : List ColumnSchema) :
    (l.map (fun c => if c.name ∈ ns then c.with_tags t else c)).map ColumnSchema.name
      = l.map ColumnSchema.name := by
  rw [List.map_map]
  apply List.map_congr_left
  intro c _
  exact condTag_name t ns c

/-- **C6.** For every schema and lists `cats`, `conts`, `labels` whose names
all exist in the schema, `_augment_schema` returns a schema whose column set
is exactly the union of the three lists, where every `labels` column carries
the TARGET tag, every `cats` column the CATEGORICAL tag and every `conts`
column the CONTINUOUS tag. -/
theorem claim_C6_augment_tags (schema : MSchema) (cats conts labels : List String)
    (sad : Bool)
    (h : ∀ n ∈ conts ++ cats ++ labels, ∃ c ∈ schema.cols, c.name = n) :
    ∃ s' : MSchema,
      _augment_schema schema cats conts labels [] [] sad = .ok s' ∧
      (∀ n, (∃ c ∈ s'.cols, c.name = n) ↔ (n ∈ cats ∨ n ∈ conts ∨ n ∈ labels)) ∧
      (∀ c ∈ s'.cols,
        (c.name ∈ labels → MTag.TARGET ∈ c.tags) ∧
        (c.name ∈ cats → MTag.CATEGORICAL ∈ c.tags) ∧
        (c.name ∈ conts → MTag.CONTINUOUS ∈ c.tags)) := by
  have hsel := select_by_name_ok schema (conts ++ cats ++ labels) h
  refine ⟨_, by rw [_augment_schema, hsel]; rfl, ?_, ?_⟩ <;>
    rw [List.foldl_nil, tagFold_cols, tagFold_cols, tagFold_cols]
  · have hnames : ((((⟨(dedupFirst (conts ++ cats ++ labels)).map fun n =>
        (schema.cols.find? fun c => c.name == n).getD
          ⟨n, [], "", false, false, []⟩⟩ : MSchema).cols.map
        (fun c => if c.name ∈ labels then c.with_tags .TARGET else c)).map
        (fun c => if c.name ∈ cats then c.with_tags .CATEGORICAL else c)).map
        (fun c => if c.name ∈ conts then c.with_tags .CONTINUOUS else c)).map
        ColumnSchema.name = dedupFirst (conts ++ cats ++ labels) := by
      rw [map_name_condTag, map_name_condTag, map_name_condTag]
      exact selected_names schema (conts ++ cats ++ labels)
    intro n
    constructor
    · rintro ⟨c, hc, he⟩
      have hmem := List.mem_map.mpr ⟨c, hc, he⟩
      rw [hnames, dedupFirst_mem] at hmem
      simp only [List.mem_append] at hmem
      tauto
    · intro hn
      have hn' : n ∈ dedupFirst (conts ++ cats ++ labels) := by
        rw [dedupFirst_mem]
        simp only [List.mem_append]
        tauto
      rw [← hnames] at hn'
      exact List.mem_map.mp hn'
  · intro c' hc'
    obtain ⟨c2, hc2, rfl⟩ := List.mem_map.mp hc'
    obtain ⟨c1, hc1, rfl⟩ := List.mem_map.mp hc2
    obtain ⟨c0, hc0, rfl⟩ := List.mem_map.mp hc1
    have hn1 : (if c0.name ∈ labels then c0.with_tags .TARGET else c0).name = c0.name :=
      condTag_name ..
    have hn2 : (if (if c0.name ∈ labels then c0.with_tags .TARGET else c0).name ∈ cats
        then (if c0.name ∈ labels then c0.with_tags .TARGET else c0).with_tags .CATEGORICAL
        else (if c0.name ∈ labels then c0.with_tags .TARGET else c0)).name = c0.name := by
      rw [condTag_name, hn1]
    refine ⟨?_, ?_, ?_⟩
    · intro hl
      rw [condTag_name, hn2] at hl
      exact condTag_mono _ _ _ _ (condTag_mono _ _ _ _ (condTag_self _ _ _ hl))
    · intro hcat
      rw [condTag_name, hn2] at hcat
      exact condTag_mono _ _ _ _ (condTag_self _ _ _ (by rwa [hn1]))
    · intro hcont
      rw [condTag_name, hn2] at hcont
      exact condTag_self _ _ _ (by rwa [hn2])

/-- **C6 witness**: a three-column schema with one column per role. -/
theorem claim_C6_witness :
    (∀ n ∈ ["b"] ++ ["a"] ++ ["c"],
      ∃ c ∈ ({ cols := [⟨"a", [], "", false, false, []⟩, ⟨"b", [], "", false, false, []⟩,
        ⟨"c", [], "", false, false, []⟩] } : MSchema).cols, c.name = n) ∧
    (∃ s' : MSchema,
      _augment_schema { cols := [⟨"a", [], "", false, false, []⟩,
          ⟨"b", [], "", false, false, []⟩, ⟨"c", [], "", false, false, []⟩] }
          ["a"] ["b"] ["c"] [] [] false = .ok s' ∧
      (∀ n, (∃ c ∈ s'.cols, c.name = n) ↔ (n ∈ ["a"] ∨ n ∈ ["b"] ∨ n ∈ ["c"])) ∧
      (∀ c ∈ s'.cols,
        (c.name ∈ ["c"] → MTag.TARGET ∈ c.tags) ∧
        (c.name ∈ ["a"] → MTag.CATEGORICAL ∈ c.tags) ∧
        (c.name ∈ ["b"] → MTag.CONTINUOUS ∈ c.tags))) :=
  ⟨by decide,
    claim_C6_augment_tags { cols := [⟨"a", [], "", false, false, []⟩,
        ⟨"b", [], "", false, false, []⟩, ⟨"c", [], "", false, false, []⟩] }
      ["a"] ["b"] ["c"] false (by decide)⟩

/-- **C7.** Every column named in `sparse_names` (all selected) comes back
marked `is_list = true` with `is_ragged` the negation of `sparse_as_dense`,
and when `sparse_max` maps it to `m` its `value_count` property has max `m`. -/
theorem claim_C7_sparse_columns (schema : MSchema)
    (cats conts labels sparse_names : List String)
    (sparse_max : List (String × Nat)) (sad : Bool)
    (h : ∀ n ∈ conts ++ cats ++ labels, ∃ c ∈ schema.cols, c.name = n)
    (hsub : ∀ n ∈ sparse_names, n ∈ conts ++ cats ++ labels) :
    ∃ s' : MSchema,
      _augment_schema schema cats conts labels sparse_names sparse_max sad = .ok s' ∧
      ∀ n ∈ sparse_names, ∃ c ∈ s'.cols,
        c.name = n ∧ c.is_list = true ∧ c.is_ragged = !sad ∧
        ∀ m, alookup n sparse_max = some m →
          alookup "value_count" c.properties = some [("max", m)] := by
  have hsel := select_by_name_ok schema (conts ++ cats ++ labels) h
  refine ⟨_, by rw [_augment_schema, hsel]; rfl, ?_⟩
  rw [sparseFold_cols, tagFold_cols, tagFold_cols, tagFold_cols]
  intro n hn
  have hnmem : n ∈ ((((⟨(dedupFirst (conts ++ cats ++ labels)).map fun n =>
      (schema.cols.find? fun c => c.name == n).getD
        ⟨n, [], "", false, false, []⟩⟩ : MSchema).cols.map
      (fun c => if c.name ∈ labels then c.with_tags .TARGET else c)).map
      (fun c => if c.name ∈ cats then c.with_tags .CATEGORICAL else c)).map
      (fun c => if c.name ∈ conts then c.with_tags .CONTINUOUS else c)).map
      ColumnSchema.name := by
    rw [map_name_condTag, map_name_condTag, map_name_condTag, selected_names,
      dedupFirst_mem]
    exact hsub n hn
  obtain ⟨c, hc, hcname⟩ := List.mem_map.mp hnmem
  have hcol : c.name ∈ sparse_names := by
    rw [hcname]
    exact hn
  refine ⟨(if c.name ∈ sparse_names then sparseRebuild sparse_max sad c.name c else c),
    List.mem_map_of_mem _ hc, ?_⟩
  rw [if_pos hcol]
  refine ⟨by rw [sparseRebuild_name, hcname], rfl, rfl, ?_⟩
  intro m hm
  show alookup "value_count"
      (match alookup c.name sparse_max with
        | some m => aupdate "value_count" [("max", m)] c.properties
        | none => c.properties) = some [("max", m)]
  rw [hcname, hm]
  exact alookup_aupdate_self ..

/-- **C7 witness**: one sparse column with `sparse_max = 10`,
`sparse_as_dense = false`. -/
theorem claim_C7_witness :
    ((∀ n ∈ ["b"] ++ ["a"] ++ ([] : List String),
      ∃ c ∈ ({ cols := [⟨"a", [], "", false, false, []⟩,
        ⟨"b", [], "", false, false, []⟩] } : MSchema).cols, c.name = n) ∧
      (∀ n ∈ ["a"], n ∈ ["b"] ++ ["a"] ++ ([] : List String))) ∧
    (∃ s' : MSchema,
      _augment_schema { cols := [⟨"a", [], "", false, false, []⟩,
          ⟨"b", [], "", false, false, []⟩] }
          ["a"] ["b"] [] ["a"] [("a", 10)] false = .ok s' ∧
      ∀ n ∈ ["a"], ∃ c ∈ s'.cols,
        c.name = n ∧ c.is_list = true ∧ c.is_ragged = !false ∧
        ∀ m, alookup n [("a", 10)] = some m →
          alookup "value_count" c.properties = some [("max", m)]) :=
  ⟨⟨by decide, by decide⟩,
    claim_C7_sparse_columns { cols := [⟨"a", [], "", false, false, []⟩,
        ⟨"b", [], "", false, false, []⟩] }
      ["a"] ["b"] [] ["a"] [("a", 10)] false (by decide) (by decide)⟩

/-- **C8.** If any requested name is absent from the schema, `_augment_schema`
propagates the selection's lookup error instead of returning a schema. -/
theorem claim_C8_missing_name (schema : MSchema)
    (cats conts labels sparse_names : List String)
    (sparse_max : List (String × Nat)) (sad : Bool) (n : String)
    (hn : n ∈ conts ++ cats ++ labels)
    (hmiss : ∀ c ∈ schema.cols, c.name ≠ n) :
    ∃ e, _augment_schema schema cats conts labels sparse_names sparse_max sad
      = .error e := by
  refine ⟨"KeyError", ?_⟩
  have hcond : ¬((conts ++ cats ++ labels).all
      (fun n => schema.cols.any (fun c => c.name == n)) = true) := by
    intro hall
    rw [List.all_eq_true] at hall
    have hthis := hall n hn
    rw [List.any_eq_true] at hthis
    obtain ⟨c, hc, he⟩ := hthis
    exact hmiss c hc (beq_iff_eq.mp he)
  rw [_augment_schema, select_by_name, if_neg hcond]
  rfl

/-- **C8 witness**: requesting a label absent from a one-column schema. -/
theorem claim_C8_witness :
    (("zzz" : String) ∈ ([] : List String) ++ ([] : List String) ++ ["zzz"] ∧
      (∀ c ∈ ({ cols := [⟨"a", [], "", false, false, []⟩] } : MSchema).cols,
        c.name ≠ "zzz")) ∧
    (∃ e, _augment_schema { cols := [⟨"a", [], "", false, false, []⟩] }
      [] [] ["zzz"] [] [] false = .error e) :=
  ⟨⟨by decide, by decide⟩,
    claim_C8_missing_name { cols := [⟨"a", [], "", false, false, []⟩] }
      [] [] ["zzz"] [] [] false "zzz" (by decide) (by decide)⟩

end SchemaUtils
